import Mathlib

/-!
Verification of the battery scoring and trial-generation engine of the
grapheme-color synesthesia testing app.

The development shallowly embeds the TypeScript sources:
* `Syn.BT` — the `app/battery` flow: `_lib/batteryTypes.ts`,
  `_lib/batteryPlan.ts` (deterministic LCG shuffle and trial plan),
  `[id]/picker.tsx` (response insertion, seed derivation) and
  `[id]/congruency.tsx` (canonical color map, fixed-N congruency trials).
* `Syn.SB` — `lib/SynesthesiaBattery.ts`: the battery scorer
  (`scoreBattery`, `pairwiseDeltas`, CIE-Lab color math) and the
  per-stimulus congruency trial builder (`buildCongruencyTrialsFromPicker`,
  `pickDifferentColor`).
* `Syn.CW` — `_components/ColorWheel.tsx`: hex parsing and formatting.

JavaScript numbers are modelled by `ℚ` (or `ℕ`/`ℤ` where the source only
ever holds integers; the integer arithmetic performed by the sources stays
far below `2^53`, where IEEE doubles are exact). The irrational CIE-Lab
pipeline is modelled over `ℝ`. `Math.random()` is modelled as an
explicitly passed stream of draws.

The file is organised as definitions first (all namespaces), then the
supporting lemmas and the claim theorems.
-/

namespace Syn

/-- Worker for `dedupFirst`, carrying the set of elements already seen. -/
def dedupFirstAux [DecidableEq α] (seen : List α) : List α → List α
  | [] => []
  | a :: l =>
    if a ∈ seen then dedupFirstAux seen l
    else a :: dedupFirstAux (seen ++ [a]) l

/-- Remove duplicates keeping the first occurrence of each element, in
order. This models JavaScript `Array.from(new Set(xs))`: a JS `Set`
iterates in first-insertion order. -/
def dedupFirst [DecidableEq α] (l : List α) : List α :=
  dedupFirstAux [] l

/-- A character stripped by JS `String.prototype.trim` (the ASCII white
space and line terminators, plus NBSP and the BOM; the remaining Unicode
space characters never occur in the app's data). -/
def isJsSpace (c : Char) : Bool :=
  c = ' ' || c = '\t' || c = '\n' || c = '\r' || c.toNat = 11 || c.toNat = 12
    || c.toNat = 0xa0 || c.toNat = 0xfeff

/-- JS `String.prototype.trim`: strip leading and trailing white space. -/
def jsTrim (s : String) : String :=
  String.mk (((s.data.dropWhile isJsSpace).reverse.dropWhile isJsSpace).reverse)

/-- JS `String.prototype.toLowerCase` on a single character; the sources
only ever lowercase ASCII strings (hex colors), where the simple mapping
`A–Z → a–z` is the whole story. -/
def charToLower (c : Char) : Char :=
  if 'A' ≤ c && c ≤ 'Z' then Char.ofNat (c.toNat + 32) else c

/-- JS `String.prototype.toLowerCase` (ASCII fragment, see `charToLower`). -/
def jsToLower (s : String) : String := String.mk (s.data.map charToLower)

/-- JS `String.prototype.startsWith("#")`. -/
def startsWithHash (s : String) : Bool :=
  match s.data with
  | c :: _ => c = '#'
  | [] => false

/-- Exchange the elements at positions `i` and `j` of a list, the identity
when either index is out of range. This models the JS destructuring swap
`[a[i], a[j]] = [a[j], a[i]]` used by both Fisher–Yates shuffles in the
source (whose indices are always in range there). -/
def swapL (l : List α) (i j : ℕ) : List α :=
  match l.get? i, l.get? j with
  | some a, some b => (l.set i b).set j a
  | _, _ => l

namespace BT

/-! ### `app/battery/_lib/batteryPlan.ts` and `batteryTypes.ts` -/

/-- The `"grapheme" | "weekday"` discriminator of `batteryTypes.ts`. -/
inductive Kind where
  | grapheme
  | weekday
  deriving DecidableEq, Repr

/-- `PickerTrial` of `batteryPlan.ts`: `{grapheme, kind, repeatIndex}`. -/
structure PickerTrial where
  grapheme : String
  kind : Kind
  repeatIndex : ℕ
  deriving DecidableEq, Repr

/-- `DEFAULT_GRAPHEMES = "ABCDEFGHIJKLMNOPQRSTUVWXYZ".split("")`. -/
def DEFAULT_GRAPHEMES : List String :=
  "ABCDEFGHIJKLMNOPQRSTUVWXYZ".data.map (fun c => String.mk [c])

/-- `DEFAULT_WEEKDAYS` of `batteryPlan.ts`. -/
def DEFAULT_WEEKDAYS : List String :=
  ["Monday", "Tuesday", "Wednesday", "Thursday", "Friday", "Saturday", "Sunday"]

/-- One step of the linear-congruential generator of `shuffle`:
`s = (s * 1664525 + 1013904223) % 4294967296`. For states below `2^32`
(every state after the first step, and every seed the app produces via
`>>> 0`) the JS double arithmetic is exact, so `ℕ` models it faithfully. -/
def lcg (s : ℕ) : ℕ := (s * 1664525 + 1013904223) % 4294967296

/-- The Fisher–Yates loop of `shuffle`, counting the loop variable `i`
down to 1. Each iteration advances the LCG and computes
`j = Math.floor(rand() * (i + 1))`, which for a state `s < 2^32` equals
`s * (i + 1) / 2^32` in exact integer arithmetic. -/
def shuffleGo : ℕ → ℕ → List α → List α
  | 0, _, l => l
  | i + 1, s, l =>
    let s1 := lcg s
    shuffleGo i s1 (swapL l (i + 1) (s1 * (i + 2) / 4294967296))

/-- `shuffle(arr, seed?)` of `batteryPlan.ts`. The initial LCG state is
`seed ?? Date.now()`; the ambient `Date.now()` value is passed in as
`nowMs` so that the dependence on it is explicit. -/
def shuffle (l : List α) (seed : Option ℕ) (nowMs : ℕ) : List α :=
  shuffleGo (l.length - 1) (seed.getD nowMs) l

/-- The trial block `buildPickerTrials` pushes for one repeat index `r`:
all graphemes, then all weekdays. -/
def planBlock (graphemes weekdays : List String) (r : ℕ) : List PickerTrial :=
  graphemes.map (fun g => ⟨g, Kind.grapheme, r⟩)
    ++ weekdays.map (fun d => ⟨d, Kind.weekday, r⟩)

/-- The unshuffled cross product built by the loop in `buildPickerTrials`:
for `r` in `[0, repeats)`, all graphemes then all weekdays. -/
def pickerPlan (graphemes weekdays : List String) (repeats : ℕ) : List PickerTrial :=
  (List.range repeats).flatMap (planBlock graphemes weekdays)

/-- `buildPickerTrials(opts)` of `batteryPlan.ts`. -/
def buildPickerTrials (graphemes weekdays : List String) (repeats : ℕ)
    (seed : Option ℕ) (nowMs : ℕ) : List PickerTrial :=
  shuffle (pickerPlan graphemes weekdays repeats) seed nowMs

/-- The seed derivation in `PickerScreen` (`picker.tsx`):
`for (i) seed = (seed * 31 + runId.charCodeAt(i)) >>> 0`. For Basic
Multilingual Plane characters, `charCodeAt` agrees with the character's
code point. -/
def seedOfRunId (runId : String) : ℕ :=
  runId.data.foldl (fun s c => (s * 31 + c.toNat) % 4294967296) 0

/-- The trial list the picker screen derives for a run id:
`buildPickerTrials({graphemes: DEFAULT_GRAPHEMES, weekdays: DEFAULT_WEEKDAYS,
repeats: 3, seed})` with the seed hashed from the run id. -/
def trialsForRun (runId : String) (nowMs : ℕ) : List PickerTrial :=
  buildPickerTrials DEFAULT_GRAPHEMES DEFAULT_WEEKDAYS 3
    (some (seedOfRunId runId)) nowMs

end BT

namespace CW

/-! ### `app/battery/_components/ColorWheel.tsx` -/

/-- The `{r, g, b}` object produced by `hexToRgbSafe` (integer channels). -/
structure RgbN where
  r : ℕ
  g : ℕ
  b : ℕ
  deriving DecidableEq, Repr

/-- A character matched by the JS character class `[0-9a-fA-F]`. -/
def isHexDigitAny (c : Char) : Bool :=
  c.isDigit || ('a' ≤ c && c ≤ 'f') || ('A' ≤ c && c ≤ 'F')

/-- A character matched by the JS character class `[0-9a-f]`. -/
def isLowerHexDigit (c : Char) : Bool :=
  c.isDigit || ('a' ≤ c && c ≤ 'f')

/-- The test `/^[0-9a-fA-F]{6}$/.test(s)` of `normalizeHex`. -/
def isBareHex6 (s : String) : Bool :=
  s.data.length = 6 && s.data.all isHexDigitAny

/-- The test `/^#[0-9a-f]{6}$/.test(h)` of `hexToRgbSafe`. -/
def isCanonicalHex (s : String) : Bool :=
  match s.data with
  | c :: rest => c = '#' && rest.length = 6 && rest.all isLowerHexDigit
  | [] => false

/-- `normalizeHex(v)` of `ColorWheel.tsx`: trim; empty stays empty; a
`#`-prefixed string is lowercased; a bare 6-hex-digit string gains a `#`
and is lowercased; anything else is just lowercased. (Lean's `trim` and
`toLower` agree with the JS ones on the ASCII strings concerned.) -/
def normalizeHex (v : String) : String :=
  let s := jsTrim v
  if s = "" then ""
  else if startsWithHash s then jsToLower s
  else if isBareHex6 s then "#" ++ jsToLower s
  else jsToLower s

/-- Value of a (lowercase) hex digit, as computed by `parseInt(…, 16)`. -/
def hexVal (c : Char) : ℕ :=
  if c.isDigit then c.toNat - '0'.toNat else c.toNat - 'a'.toNat + 10

/-- `parseInt` of a two-hex-digit slice such as `h.slice(1, 3)`. -/
def hexPairVal (c1 c2 : Char) : ℕ := 16 * hexVal c1 + hexVal c2

/-- `hexToRgbSafe(hex)` of `ColorWheel.tsx`: normalize, test against
`^#[0-9a-f]{6}$`, then parse the three channel slices with
`parseInt(…, 16)`. (The source's final `Number.isFinite` test is
vacuously true once the pattern matched, and is dropped here.) -/
def hexToRgbSafe (hex : String) : Option RgbN :=
  match (normalizeHex hex).data with
  | ['#', d1, d2, d3, d4, d5, d6] =>
    if isLowerHexDigit d1 && isLowerHexDigit d2 && isLowerHexDigit d3 &&
        isLowerHexDigit d4 && isLowerHexDigit d5 && isLowerHexDigit d6 then
      some ⟨hexPairVal d1 d2, hexPairVal d3 d4, hexPairVal d5 d6⟩
    else none
  | _ => none

/-- `Math.round`, which rounds half away from zero upward:
`Math.round(x) = ⌊x + 1/2⌋`. -/
def jsRound (q : ℚ) : ℤ := ⌊q + 1 / 2⌋

/-- `clamp(Math.round(x), 0, 255)` as used by `rgbToHex`; the result is a
byte. (`clamp(n, a, b) = Math.max(a, Math.min(b, n))`.) -/
def toByte (q : ℚ) : ℕ := (max 0 (min 255 (jsRound q))).toNat

/-- The lowercase hex digit character for `n < 16`, as produced by
`Number.prototype.toString(16)`. -/
def hexDigitChar (n : ℕ) : Char :=
  if n < 10 then Char.ofNat ('0'.toNat + n) else Char.ofNat ('a'.toNat + n - 10)

/-- `n.toString(16).padStart(2, "0")` for a byte `n`: exactly two
lowercase hex digits. -/
def hexPairStr (n : ℕ) : String :=
  String.mk [hexDigitChar (n / 16), hexDigitChar (n % 16)]

/-- `rgbToHex(r, g, b)` of `ColorWheel.tsx`. The source's final
`toLowerCase()` is the identity here because every emitted digit is
already lowercase. -/
def rgbToHex (r g b : ℚ) : String :=
  "#" ++ hexPairStr (toByte r) ++ hexPairStr (toByte g) ++ hexPairStr (toByte b)

end CW

namespace BT

/-! ### `batteryTypes.ts` responses, `picker.tsx` insertion and
`congruency.tsx` canonical map / fixed-N trials -/

/-- `PickerResponse` of `batteryTypes.ts`. -/
structure PickerResponse where
  grapheme : String
  kind : Kind
  repeatIndex : ℕ
  trialIndex : ℕ
  atMs : ℚ
  isNoColor : Bool
  rgb : Option CW.RgbN
  hex : Option String
  deriving DecidableEq, Repr

/-- The string tag of a `Kind`, as it appears in the JS data. -/
def kindStr : Kind → String
  | .grapheme => "grapheme"
  | .weekday => "weekday"

/-- `trialKey(t)` of `picker.tsx`: `` `${t.kind}:${t.grapheme}:${t.repeatIndex}` ``. -/
def trialKey (k : Kind) (g : String) (ri : ℕ) : String :=
  kindStr k ++ ":" ++ g ++ ":" ++ toString ri

/-- The key of a stored response. -/
def PickerResponse.key (r : PickerResponse) : String :=
  trialKey r.kind r.grapheme r.repeatIndex

/-- The `(kind, stimulusText, repeatIndex)` identity of a response. -/
def identOf (r : PickerResponse) : Kind × String × ℕ :=
  (r.kind, r.grapheme, r.repeatIndex)

/-- The replace-by-key insertion performed by `onNext` in `picker.tsx`:
`filtered = prev.filter(r => trialKey(r) !== k)` followed by
`[...filtered, resp]`. -/
def insertResponse (rs : List PickerResponse) (resp : PickerResponse) :
    List PickerResponse :=
  rs.filter (fun r => r.key ≠ resp.key) ++ [resp]

/-- One step of the fold in `buildCanonicalMap` (`congruency.tsx`): skip
non-grapheme responses, no-color responses and blank hexes; otherwise
insert the lowercased trimmed hex only if the grapheme has no entry yet. -/
def canonStep (m : List (String × String)) (r : PickerResponse) :
    List (String × String) :=
  if r.kind ≠ Kind.grapheme then m
  else if r.isNoColor then m
  else if jsTrim (r.hex.getD "") = "" then m
  else if (m.lookup r.grapheme).isSome then m
  else m ++ [(r.grapheme, jsToLower (jsTrim (r.hex.getD "")))]

/-- `buildCanonicalMap(payload)` of `congruency.tsx`, as an insertion-order
association list (a faithful image of a JS `Map`). -/
def buildCanonicalMap (rs : List PickerResponse) : List (String × String) :=
  rs.foldl canonStep []

/-- The first-response predicate that characterises `buildCanonicalMap`:
a grapheme-kind response for `g`, not no-color, with a nonblank hex. -/
def canonQualifies (g : String) (r : PickerResponse) : Bool :=
  r.kind == Kind.grapheme && !r.isNoColor &&
    !(jsTrim (r.hex.getD "") == "") && r.grapheme == g

/-- The canonical value recorded for a qualifying response. -/
def canonVal (r : PickerResponse) : String := jsToLower (jsTrim (r.hex.getD ""))

/-- `pick(arr, i) = arr[i % arr.length]` of `congruency.tsx`. Every call
site passes a nonempty list (the JS expression is undefined on an empty
one); on an empty list this model returns the default element. -/
def pick [Inhabited α] (l : List α) (i : ℕ) : α :=
  l.getD (i % l.length) default

/-- The `fallbackHexes` palette of `congruency.tsx`. -/
def fallbackHexes : List String :=
  ["#ff0000", "#00ff00", "#0000ff", "#ffff00", "#ff00ff", "#00ffff",
    "#ffa500", "#111827"]

/-- The deduplicated grapheme list computed by the `trials` memo of
`congruency.tsx`: distinct graphemes of grapheme-kind picker responses,
blank ones dropped. -/
def congruencyGraphemes (rs : List PickerResponse) : List String :=
  (dedupFirst ((rs.filter (fun r => r.kind == Kind.grapheme)).map
    (·.grapheme))).filter (· ≠ "")

/-- One generated trial of the fixed-N congruency variant. -/
structure CongruencyTrialFixed where
  stimulusText : String
  expectedMatch : Bool
  shownHex : String
  deriving DecidableEq, Repr

/-- The fixed-N (`N = 40`) congruency trial list built by the `trials`
memo of `congruency.tsx`. -/
def congruencyTrials (rs : List PickerResponse) : List CongruencyTrialFixed :=
  let graphemes := congruencyGraphemes rs
  if graphemes = [] then []
  else
    let canonical := buildCanonicalMap rs
    let hexes := dedupFirst (canonical.map (·.2))
    (List.range 40).map (fun i =>
      let g := pick graphemes (i * 7 + 3)
      let wantMatch := i % 2 == 0
      let learned := (canonical.lookup g).getD (pick fallbackHexes i)
      let shown :=
        if wantMatch then learned
        else
          let pool := (if hexes = [] then fallbackHexes else hexes).filter
            (fun h => jsToLower h ≠ jsToLower learned)
          pick (if pool = [] then fallbackHexes else pool) (i * 13 + 1)
      ⟨g, wantMatch, shown⟩)

end BT

namespace SB

/-! ### `lib/SynesthesiaBattery.ts` (Syn/lib/SynesthesiaBattery.ts) -/

/-- `Rgb = {r, g, b : number}`. -/
structure Rgb where
  r : ℚ
  g : ℚ
  b : ℚ
  deriving DecidableEq, Repr

/-- `Hsv = {h, s, v : number}`. -/
structure Hsv where
  h : ℚ
  s : ℚ
  v : ℚ
  deriving DecidableEq, Repr

/-- `PickerTrial` of `SynesthesiaBattery.ts`. -/
structure PickerTrial where
  id : String
  grapheme : String
  repeatIndex : ℕ
  deriving DecidableEq, Repr

/-- `PickerResponse` of `SynesthesiaBattery.ts`. `repeatIndex` is an `ℤ`
because the scorer explicitly guards against negative values. -/
structure PickerResponse where
  trialId : String
  grapheme : String
  repeatIndex : ℤ
  isNoColor : Bool
  rgb : Option Rgb
  hsv : Option Hsv
  gray : Option ℚ
  rtMs : ℚ
  ts : ℚ
  deriving DecidableEq, Repr

/-- `CongruencyTrial` of `SynesthesiaBattery.ts`. The `id` field — a
random string used only as a list key — is not modelled. -/
structure CongruencyTrial where
  grapheme : String
  shownRgb : Rgb
  isCongruent : Bool
  deriving DecidableEq, Repr

/-- `CongruencyResponse` of `SynesthesiaBattery.ts`. -/
structure CongruencyResponse where
  trialId : String
  grapheme : String
  answeredMatched : Bool
  correct : Bool
  rtMs : ℚ
  ts : ℚ
  deriving DecidableEq, Repr

/-- `BatteryRun` of `SynesthesiaBattery.ts`. -/
structure BatteryRun where
  runId : String
  pickerTrials : List PickerTrial
  pickerIndex : ℕ
  pickerResponses : List PickerResponse
  congruencyTrials : List CongruencyTrial
  congruencyIndex : ℕ
  congruencyResponses : List CongruencyResponse
  createdAt : ℚ
  deriving Repr

/-! #### CIE-Lab color math (`rgbToXyz`, `xyzToLab`, `deltaE76`).
The irrational parts (`Math.pow(·, 2.4)`, `Math.cbrt`, `Math.sqrt`) live
in `ℝ`; the branch conditions compare the rational channel inputs, as the
source does. `Math.cbrt t` is modelled as `t ^ (1/3)`, which agrees with
it on the nonnegative values arising from color channels. -/

noncomputable section

open Classical in
/-- One channel of the sRGB gamma decoding in `rgbToXyz`:
`c <= 0.04045 ? c / 12.92 : ((c + 0.055) / 1.055) ** 2.4` applied to
`channel / 255`. -/
def gammaDecode (c : ℚ) : ℝ :=
  if c / 255 ≤ (0.04045 : ℚ) then ((c : ℝ) / 255) / 12.92
  else (((c : ℝ) / 255 + 0.055) / 1.055) ^ (2.4 : ℝ)

/-- The XYZ triple of `rgbToXyz` (already scaled by 100). -/
structure Xyz where
  x : ℝ
  y : ℝ
  z : ℝ

/-- Lab triple. -/
structure Lab where
  L : ℝ
  a : ℝ
  b : ℝ

/-- `rgbToXyz` of `SynesthesiaBattery.ts`. -/
def rgbToXyz (rgb : Rgb) : Xyz :=
  let r := gammaDecode rgb.r
  let g := gammaDecode rgb.g
  let b := gammaDecode rgb.b
  ⟨(r * 0.4124 + g * 0.3576 + b * 0.1805) * 100,
    (r * 0.2126 + g * 0.7152 + b * 0.0722) * 100,
    (r * 0.0193 + g * 0.1192 + b * 0.9505) * 100⟩

open Classical in
/-- The CIE `f` transform of `xyzToLab`:
`t > 0.008856 ? Math.cbrt(t) : 7.787 * t + 16 / 116`. -/
def labF (t : ℝ) : ℝ :=
  if t > 0.008856 then t ^ ((1 : ℝ) / 3) else 7.787 * t + 16 / 116

/-- `xyzToLab` of `SynesthesiaBattery.ts` (D65 reference white). -/
def xyzToLab (xyz : Xyz) : Lab :=
  let fx := labF (xyz.x / 95.047)
  let fy := labF (xyz.y / 100.0)
  let fz := labF (xyz.z / 108.883)
  ⟨116 * fy - 16, 500 * (fx - fy), 200 * (fy - fz)⟩

/-- `rgbToLab` of `SynesthesiaBattery.ts`. -/
def rgbToLab (rgb : Rgb) : Lab := xyzToLab (rgbToXyz rgb)

/-- `deltaE76`: Euclidean distance in Lab space. -/
def deltaE76 (a b : Lab) : ℝ :=
  Real.sqrt ((a.L - b.L) * (a.L - b.L) + (a.a - b.a) * (a.a - b.a)
    + (a.b - b.b) * (a.b - b.b))

/-- `pairwiseDeltas(colors)`: the ΔE76 of every index pair `i < j`, in
loop order. -/
def pairwiseDeltas : List Rgb → List ℝ
  | [] => []
  | c :: rest =>
    rest.map (fun d => deltaE76 (rgbToLab c) (rgbToLab d)) ++ pairwiseDeltas rest

/-- One response of the slot-filling loop in `scoreBattery` step 1:
`if (r.isNoColor || !r.rgb) continue;
if (r.repeatIndex >= 0 && r.repeatIndex < repeats) slots[r.repeatIndex] = r.rgb`. -/
def slotStep (repeats : ℕ) (slots : List (Option Rgb)) (r : PickerResponse) :
    List (Option Rgb) :=
  if r.isNoColor then slots
  else
    match r.rgb with
    | none => slots
    | some c =>
      if 0 ≤ r.repeatIndex ∧ r.repeatIndex < (repeats : ℤ) then
        slots.set r.repeatIndex.toNat (some c)
      else slots

/-- The per-stimulus repeat slots of `scoreBattery` step 1 (initialized
to `null`). -/
def fillSlots (repeats : ℕ) (rs : List PickerResponse) : List (Option Rgb) :=
  rs.foldl (slotStep repeats) (List.replicate repeats none)

/-- `deltas.length ? deltas.reduce((a, b) => a + b, 0) / deltas.length : 0`. -/
def meanOfR (ds : List ℝ) : ℝ :=
  if ds.length ≠ 0 then ds.foldl (· + ·) 0 / ds.length else 0

/-- `PickerScoreRow` of `SynesthesiaBattery.ts`. -/
structure PickerScoreRow where
  grapheme : String
  repeats : List (Option Rgb)
  meanDeltaE : ℝ

/-- `BatteryResults` of `SynesthesiaBattery.ts`. -/
structure BatteryResults where
  pickerScore : ℝ
  pickerRows : List PickerScoreRow
  congruencyAccuracyPct : ℚ
  congruencyMeanRtSec : ℚ

/-- One step of the `byG` grouping `Map` in `scoreBattery`:
`if (!byG.has(g)) byG.set(g, []); byG.get(g).push(r)`. A JS `Map` keeps
keys in first-insertion order, which the association list mirrors. -/
def groupPush (m : List (String × List PickerResponse)) (r : PickerResponse) :
    List (String × List PickerResponse) :=
  if (m.lookup r.grapheme).isSome then
    m.map (fun e => if e.1 = r.grapheme then (e.1, e.2 ++ [r]) else e)
  else m ++ [(r.grapheme, [r])]

/-- The `byG` grouping map of `scoreBattery`. -/
def groupByG (rs : List PickerResponse) :
    List (String × List PickerResponse) :=
  rs.foldl groupPush []

/-- The row `scoreBattery` pushes for one grapheme group. -/
def mkRow (repeats : ℕ) (g : String) (grp : List PickerResponse) :
    PickerScoreRow :=
  let slots := fillSlots repeats grp
  let deltas := pairwiseDeltas (slots.filterMap id)
  ⟨g, slots, meanOfR deltas⟩

/-- Modelled from the spec: step 4 of §4.5 sorts rows by
`a.grapheme.localeCompare(b.grapheme, "en")`, JS standard-library behavior
external to this repository. It is modelled as case-insensitive
lexicographic order with a raw tiebreak, which agrees with the `en`
locale on the app's ASCII stimulus names; no claim depends on the precise
collation. -/
def localeLe (a b : String) : Bool :=
  if jsToLower a = jsToLower b then decide (a ≤ b)
  else decide (jsToLower a ≤ jsToLower b)

/-- `rows.sort((a, b) => a.grapheme.localeCompare(b.grapheme, "en"))`;
modern JS engines sort stably, as `mergeSort` does. -/
def sortRows (rows : List PickerScoreRow) : List PickerScoreRow :=
  rows.mergeSort (fun a b => localeLe a.grapheme b.grapheme)

/-- `scoreBattery(run, repeats)` of `SynesthesiaBattery.ts`. The overall
`pickerScore` is computed from the rows before they are sorted, exactly
as in the source (the sort only reorders the returned rows). -/
def scoreBattery (run : BatteryRun) (repeats : ℕ) : BatteryResults :=
  let rows := (groupByG run.pickerResponses).map (fun e => mkRow repeats e.1 e.2)
  let pickerScore : ℝ :=
    if rows.length ≠ 0 then
      rows.foldl (fun a r => a + r.meanDeltaE) (0 : ℝ) / rows.length
    else 0
  let congr := run.congruencyResponses
  let correctCount := (congr.filter (fun c => c.correct)).length
  let congruencyAccuracyPct : ℚ :=
    if congr.length ≠ 0 then ((correctCount : ℚ) / congr.length) * 100 else 0
  let congruencyMeanRtSec : ℚ :=
    if congr.length ≠ 0 then
      (congr.foldl (fun a c => a + c.rtMs) 0) / congr.length / 1000
    else 0
  ⟨pickerScore, sortRows rows, congruencyAccuracyPct, congruencyMeanRtSec⟩

/-! #### Specification-side formulations for the scorer (the spec's words,
to be compared with the translation above). -/

/-- The color in slot `i` according to the spec: the rgb of the colored
(`!isNoColor`, rgb present) response with `repeatIndex === i`; when
several responses carry the same repeat index the loop's last write
wins. -/
def lastColoredAt (rs : List PickerResponse) (i : ℕ) : Option Rgb :=
  (rs.filterMap (fun r =>
    if r.isNoColor = false ∧ r.repeatIndex = (i : ℤ) then r.rgb
    else none)).getLast?

/-- The spec's slot array: length `repeats`, slot `i` as `lastColoredAt`. -/
def specSlots (rs : List PickerResponse) (repeats : ℕ) : List (Option Rgb) :=
  (List.range repeats).map (lastColoredAt rs)

/-- All index pairs `i < j` of a list, in order. -/
def allPairs : List α → List (α × α)
  | [] => []
  | a :: t => t.map (fun b => (a, b)) ++ allPairs t

/-- The spec's `meanDeltaE`: the arithmetic mean of all pairwise ΔE76
distances among the non-null slots, defined as 0 when at most one slot is
non-null. -/
def specMeanDeltaE (slots : List (Option Rgb)) : ℝ :=
  if (slots.filterMap id).length ≤ 1 then 0
  else ((allPairs (slots.filterMap id)).map
      (fun p => deltaE76 (rgbToLab p.1) (rgbToLab p.2))).sum
    / (allPairs (slots.filterMap id)).length

/-- The spec's per-stimulus row: group by filtering, fill slots, take the
mean of the pairwise distances. -/
def specRow (rs : List PickerResponse) (repeats : ℕ) (g : String) :
    PickerScoreRow :=
  ⟨g, specSlots (rs.filter (fun r => r.grapheme = g)) repeats,
    specMeanDeltaE (specSlots (rs.filter (fun r => r.grapheme = g)) repeats)⟩

end

/-- The defensive bound of `scoreBattery` step 1: a response participates
in the slots only when `0 ≤ repeatIndex < repeats`. -/
def inRange (repeats : ℕ) (r : PickerResponse) : Bool :=
  decide (0 ≤ r.repeatIndex ∧ r.repeatIndex < (repeats : ℤ))

/-- A congruency response with the given correctness flag and a 500 ms
reaction time (example data for the accuracy computation). -/
def cResp (correct : Bool) : CongruencyResponse :=
  ⟨"t", "A", correct, correct, 500, 0⟩

/-- A run holding ten congruency responses of which exactly seven are
correct (spec §8, scenario C). -/
def scenarioCRun : BatteryRun :=
  ⟨"rid", [], 0, [], [], 0,
    [cResp true, cResp true, cResp true, cResp true, cResp true,
      cResp true, cResp true, cResp false, cResp false, cResp false], 0⟩

/-! #### `buildCongruencyTrialsFromPicker` and its randomness.
`Math.random()` returns an IEEE double of the form `m / 2^53` with
`m < 2^53`; it is modelled as an explicit stream `rand : ℕ → ℕ` of those
numerators `m`, together with the next unread position, so that
`Math.floor(rand() * n)` becomes the exact `rand k * n / 2^53`. The
source's draws for the trials' random `id` suffixes (dropped from the
model together with the `id` field) are absorbed by reindexing the
arbitrary stream. -/

/-- One update of the `lastColorByG` map:
`if (!resp.isNoColor && resp.rgb) lastColorByG.set(resp.grapheme, resp.rgb)`.
A JS `Map.set` overwrites the value but keeps the key's original
insertion position, as the association-list update does. -/
def lastColorUpsert (m : List (String × Rgb)) (r : PickerResponse) :
    List (String × Rgb) :=
  if r.isNoColor then m
  else
    match r.rgb with
    | none => m
    | some c =>
      if (m.lookup r.grapheme).isSome then
        m.map (fun e => if e.1 = r.grapheme then (e.1, c) else e)
      else m ++ [(r.grapheme, c)]

/-- The `lastColorByG` map of `buildCongruencyTrialsFromPicker`: the
*last* chosen color of each grapheme, no-color responses ignored. -/
def lastColorByG (rs : List PickerResponse) : List (String × Rgb) :=
  rs.foldl lastColorUpsert []

/-- The bounded retry loop of `pickDifferentColor`: up to 20 draws of
`all[Math.floor(Math.random() * all.length)]`, returning the first
candidate different from `target`, else `all[0]`. Returns the chosen
color with the next unread stream position. The `getD` default is
unreachable for draws below `2^53`. -/
def pickLoop (rand : ℕ → ℕ) (all : List Rgb) (target : Rgb) :
    ℕ → ℕ → Rgb × ℕ
  | k, 0 => (all.getD 0 target, k)
  | k, t + 1 =>
    let c := all.getD (rand k * all.length / 9007199254740992) target
    if c ≠ target then (c, k + 1) else pickLoop rand all target (k + 1) t

/-- `pickDifferentColor(all, target)` of `SynesthesiaBattery.ts`:
immediately `target` when the pool has at most one color, otherwise the
bounded retry loop. -/
def pickDifferentColor (rand : ℕ → ℕ) (k : ℕ) (all : List Rgb)
    (target : Rgb) : Rgb × ℕ :=
  if all.length ≤ 1 then (target, k) else pickLoop rand all target k 20

/-- The inner `for (i = 0; i < perGrapheme; i++)` loop of
`buildCongruencyTrialsFromPicker`: per iteration one congruent trial
(`shownRgb = target`) and one incongruent trial whose color comes from
`pickDifferentColor`, threading the stream position. -/
def buildForG (rand : ℕ → ℕ) (per : ℕ) (colors : List Rgb) (g : String)
    (target : Rgb) (start : List CongruencyTrial × ℕ) :
    List CongruencyTrial × ℕ :=
  (List.range per).foldl (fun acc _ =>
    let pd := pickDifferentColor rand acc.2 colors target
    (acc.1 ++ [⟨g, target, true⟩, ⟨g, pd.1, false⟩], pd.2)) start

/-- The unshuffled trial list (with the final stream position) built by
the grapheme loop of `buildCongruencyTrialsFromPicker`; the `lookup`
always succeeds because the keys are the map's own keys (the `none` arm
mirrors the source's non-null assertion by changing nothing). `colors`
is the map's value list — the source's `.filter(Boolean)` is a no-op on
objects. -/
def builtCT (rand : ℕ → ℕ) (run : BatteryRun) (per : ℕ) :
    List CongruencyTrial × ℕ :=
  ((lastColorByG run.pickerResponses).map (fun e => e.1)).foldl
    (fun acc g =>
      match (lastColorByG run.pickerResponses).lookup g with
      | some target =>
        buildForG rand per ((lastColorByG run.pickerResponses).map
          (fun e => e.2)) g target acc
      | none => acc)
    ([], 0)

/-- The `shuffleInPlace` Fisher–Yates loop of `SynesthesiaBattery.ts`,
drawing `j = (Math.random() * (i + 1)) | 0` from the stream (`| 0`
truncates, which on `[0, i + 1)` is `floor`). -/
def shuffleRandGo (rand : ℕ → ℕ) : ℕ → ℕ → List α → List α
  | 0, _, l => l
  | i + 1, k, l =>
    shuffleRandGo rand i (k + 1)
      (swapL l (i + 1) (rand k * (i + 2) / 9007199254740992))

/-- `buildCongruencyTrialsFromPicker(run, perGrapheme)` of
`SynesthesiaBattery.ts`. -/
def buildCongruencyTrialsFromPicker (rand : ℕ → ℕ) (run : BatteryRun)
    (per : ℕ) : List CongruencyTrial :=
  shuffleRandGo rand ((builtCT rand run per).1.length - 1)
    (builtCT rand run per).2 (builtCT rand run per).1

end SB

end Syn

/-! ## Supporting lemmas -/

namespace Syn

/-- Writing `a` into slot `m` while pulling slot `m`'s old value `b` to
the front permutes the list with `a` pushed to the front. -/
theorem get?_cons_set_perm :
    ∀ (t : List α) (m : ℕ) (a b : α), t.get? m = some b →
      (b :: t.set m a).Perm (a :: t) := by
  intro t
  induction t with
  | nil => intro m a b h; simp at h
  | cons c t ih =>
    intro m a b h
    cases m with
    | zero =>
      simp only [List.get?_cons_zero, Option.some.injEq] at h
      subst h
      simpa using List.Perm.swap a c t
    | succ k =>
      simp only [List.get?_cons_succ] at h
      have h1 : (b :: c :: t.set k a).Perm (c :: b :: t.set k a) :=
        List.Perm.swap c b _
      have h2 : (c :: b :: t.set k a).Perm (c :: a :: t) :=
        List.Perm.cons c (ih k a b h)
      have h3 : (c :: a :: t).Perm (a :: c :: t) := List.Perm.swap a c t
      simpa using (h1.trans h2).trans h3

/-- A double `set` that exchanges the values read at two positions is a
permutation. -/
theorem set_set_perm :
    ∀ (l : List α) (i j : ℕ) (a b : α),
      l.get? i = some a → l.get? j = some b →
      ((l.set i b).set j a).Perm l := by
  intro l
  induction l with
  | nil => intro i j a b h; simp at h
  | cons c t ih =>
    intro i j a b hi hj
    cases i with
    | zero =>
      simp only [List.get?_cons_zero, Option.some.injEq] at hi
      subst hi
      cases j with
      | zero =>
        simp only [List.get?_cons_zero, Option.some.injEq] at hj
        subst hj
        simp
      | succ m =>
        simp only [List.get?_cons_succ] at hj
        simpa using get?_cons_set_perm t m c b hj
    | succ k =>
      simp only [List.get?_cons_succ] at hi
      cases j with
      | zero =>
        simp only [List.get?_cons_zero, Option.some.injEq] at hj
        subst hj
        simpa using get?_cons_set_perm t k c a hi
      | succ m =>
        simp only [List.get?_cons_succ] at hj
        simpa using List.Perm.cons c (ih k m a b hi hj)

theorem swapL_perm (l : List α) (i j : ℕ) : (swapL l i j).Perm l := by
  unfold swapL
  split
  · next a b hi hj => exact set_set_perm l i j a b hi hj
  · exact List.Perm.refl l

namespace BT

theorem shuffleGo_perm : ∀ (i s : ℕ) (l : List α), (shuffleGo i s l).Perm l := by
  intro i
  induction i with
  | zero => intro s l; exact List.Perm.refl l
  | succ k ih => intro s l; exact (ih _ _).trans (swapL_perm ..)

theorem shuffle_perm (l : List α) (seed : Option ℕ) (nowMs : ℕ) :
    (shuffle l seed nowMs).Perm l :=
  shuffleGo_perm _ _ _

theorem mem_planBlock {g w : List String} {r : ℕ} {t : PickerTrial} :
    t ∈ planBlock g w r ↔
      t.repeatIndex = r ∧
        ((t.kind = Kind.grapheme ∧ t.grapheme ∈ g) ∨
          (t.kind = Kind.weekday ∧ t.grapheme ∈ w)) := by
  obtain ⟨s, k, i⟩ := t
  simp only [planBlock, List.mem_append, List.mem_map, PickerTrial.mk.injEq]
  constructor
  · rintro (⟨a, ha, rfl, rfl, rfl⟩ | ⟨a, ha, rfl, rfl, rfl⟩)
    · exact ⟨rfl, Or.inl ⟨rfl, ha⟩⟩
    · exact ⟨rfl, Or.inr ⟨rfl, ha⟩⟩
  · rintro ⟨rfl, (⟨rfl, hs⟩ | ⟨rfl, hs⟩)⟩
    · exact Or.inl ⟨s, hs, rfl, rfl, rfl⟩
    · exact Or.inr ⟨s, hs, rfl, rfl, rfl⟩

theorem nodup_planBlock {g w : List String} (hg : g.Nodup) (hw : w.Nodup)
    (r : ℕ) : (planBlock g w r).Nodup := by
  refine List.Nodup.append ?_ ?_ ?_
  · exact hg.map (fun a b h => by simpa using congrArg PickerTrial.grapheme h)
  · exact hw.map (fun a b h => by simpa using congrArg PickerTrial.grapheme h)
  · intro t h1 h2
    simp only [List.mem_map] at h1 h2
    obtain ⟨a, _, rfl⟩ := h1
    obtain ⟨b, _, hb⟩ := h2
    exact absurd (congrArg PickerTrial.kind hb) (by simp)

theorem nodup_pickerPlan {g w : List String} (hg : g.Nodup) (hw : w.Nodup)
    (n : ℕ) : (pickerPlan g w n).Nodup := by
  rw [pickerPlan, List.nodup_flatMap]
  refine ⟨fun r _ => nodup_planBlock hg hw r, ?_⟩
  refine List.Pairwise.imp ?_ (List.pairwise_lt_range n)
  intro r1 r2 hlt t h1 h2
  rw [mem_planBlock] at h1 h2
  exact absurd (h1.1 ▸ h2.1) (Nat.ne_of_lt hlt)

theorem length_pickerPlan (g w : List String) (n : ℕ) :
    (pickerPlan g w n).length = n * (g.length + w.length) := by
  induction n with
  | zero => simp [pickerPlan]
  | succ k ih =>
    rw [pickerPlan, List.range_succ, List.flatMap_append] at *
    simp only [List.length_append, List.flatMap_cons, List.flatMap_nil,
      List.append_nil] at *
    rw [ih]
    simp [planBlock, Nat.succ_mul]

theorem key_eq_of_identOf_eq {x y : PickerResponse}
    (h : identOf x = identOf y) : x.key = y.key := by
  simp only [identOf, Prod.mk.injEq] at h
  obtain ⟨hk, hg, hi⟩ := h
  simp [PickerResponse.key, trialKey, hk, hg, hi]

/-- Every survivor of the key filter in `insertResponse` has an identity
different from the inserted response's. -/
theorem filter_key_ne_ident_nil (rs : List PickerResponse)
    (r : PickerResponse) :
    (rs.filter (fun x => x.key ≠ r.key)).filter
      (fun x => identOf x == identOf r) = [] := by
  rw [List.filter_eq_nil_iff]
  intro x hx
  rw [List.mem_filter] at hx
  have hkey : x.key ≠ r.key := by simpa using hx.2
  intro hid
  exact hkey (key_eq_of_identOf_eq (eq_of_beq hid))

theorem insertResponse_filter_ident (rs : List PickerResponse)
    (r : PickerResponse) :
    (insertResponse rs r).filter (fun x => identOf x == identOf r) = [r] := by
  rw [insertResponse, List.filter_append, filter_key_ne_ident_nil]
  simp

theorem insertResponse_countP_self (rs : List PickerResponse)
    (r : PickerResponse) :
    (insertResponse rs r).countP (fun x => identOf x == identOf r) = 1 := by
  rw [List.countP_eq_length_filter, insertResponse_filter_ident]
  rfl

theorem insertResponse_atMostOne (rs : List PickerResponse)
    (r : PickerResponse)
    (hinv : ∀ k0, rs.countP (fun x => identOf x == k0) ≤ 1)
    (k : Kind × String × ℕ) :
    (insertResponse rs r).countP (fun x => identOf x == k) ≤ 1 := by
  by_cases hk : k = identOf r
  · subst hk
    rw [insertResponse_countP_self]
  · rw [insertResponse, List.countP_append]
    have h1 : List.countP (fun x => identOf x == k) [r] = 0 := by
      simp only [List.countP_cons, List.countP_nil]
      have hb : (identOf r == k) = false := beq_eq_false_iff_ne.mpr (Ne.symm hk)
      simp [hb]
    rw [h1, Nat.add_zero]
    exact le_trans ((List.filter_sublist rs).countP_le _) (hinv k)

/-- The lookup of a `canonStep` fold, characterised by the first
qualifying response: this is the heart of the first-wins behaviour. -/
theorem canonFold_lookup :
    ∀ (rs : List PickerResponse) (m : List (String × String)) (g : String),
      ((rs.foldl canonStep m).lookup g)
        = (m.lookup g).or ((rs.find? (canonQualifies g)).map canonVal) := by
  intro rs
  induction rs with
  | nil => intro m g; simp
  | cons r rs ih =>
    intro m g
    rw [List.foldl_cons, ih]
    cases hq : canonQualifies g r with
    | true =>
      rw [List.find?_cons_of_pos _ hq]
      simp only [canonQualifies, Bool.and_eq_true] at hq
      obtain ⟨⟨⟨hk, hnc⟩, hhex⟩, hgg⟩ := hq
      have hk2 : r.kind = Kind.grapheme := eq_of_beq hk
      have hnc2 : r.isNoColor = false := by simpa using hnc
      have hhex2 : jsTrim (r.hex.getD "") ≠ "" := by
        rw [Bool.not_eq_true'] at hhex
        exact beq_eq_false_iff_ne.mp hhex
      have hgg2 : r.grapheme = g := eq_of_beq hgg
      rw [canonStep, if_neg (not_not_intro hk2),
        if_neg (by rw [hnc2]; exact Bool.false_ne_true), if_neg hhex2]
      cases hs : (m.lookup r.grapheme).isSome with
      | true =>
        rw [if_pos rfl]
        obtain ⟨v, hv⟩ := Option.isSome_iff_exists.mp hs
        rw [hgg2] at hv
        rw [hv]
        rfl
      | false =>
        rw [if_neg Bool.false_ne_true]
        have hs2 : List.lookup r.grapheme m = none := by
          cases hlm : List.lookup r.grapheme m with
          | none => rfl
          | some v => rw [hlm] at hs; simp at hs
        rw [hgg2] at hs2
        rw [hgg2, List.lookup_append, hs2]
        simp [List.lookup, canonVal]
    | false =>
      rw [List.find?_cons_of_neg _ (by rw [hq]; exact Bool.false_ne_true)]
      have hstep : (canonStep m r).lookup g = m.lookup g := by
        rw [canonStep]
        split_ifs with h1 h2 h3 h4
        · rfl
        · rfl
        · rfl
        · rfl
        · have hgne : r.grapheme ≠ g := by
            intro hgg
            have hqt : canonQualifies g r = true := by
              simp only [canonQualifies, Bool.and_eq_true]
              refine ⟨⟨⟨beq_iff_eq.mpr (not_not.mp h1), ?_⟩, ?_⟩,
                beq_iff_eq.mpr hgg⟩
              · simpa using h2
              · simpa using h3
            rw [hq] at hqt
            exact Bool.noConfusion hqt
          rw [List.lookup_append]
          have hnone : List.lookup g
              [(r.grapheme, jsToLower (jsTrim (r.hex.getD "")))] = none := by
            have hb : (g == r.grapheme) = false :=
              beq_eq_false_iff_ne.mpr (Ne.symm hgne)
            simp [List.lookup, hb]
          rw [hnone, Option.or_none]
      rw [hstep]

end BT

theorem dropWhile_eq_self_of_all (p : α → Bool) (l : List α)
    (h : ∀ c ∈ l, p c = false) : l.dropWhile p = l := by
  cases l with
  | nil => rfl
  | cons a t => simp [List.dropWhile_cons, h a (List.mem_cons_self a t)]

theorem jsTrim_eq_self (s : String) (h : ∀ c ∈ s.data, isJsSpace c = false) :
    jsTrim s = s := by
  unfold jsTrim
  rw [dropWhile_eq_self_of_all _ _ h,
    dropWhile_eq_self_of_all _ _ (fun c hc => h c (List.mem_reverse.mp hc)),
    List.reverse_reverse]

theorem jsToLower_eq_self (s : String) (h : ∀ c ∈ s.data, charToLower c = c) :
    jsToLower s = s := by
  unfold jsToLower
  rw [List.map_congr_left h]
  simp

namespace CW

/-- Evaluation facts about the sixteen lowercase hex digit characters. -/
theorem digitChar_spec : ∀ n, n < 16 →
    isLowerHexDigit (hexDigitChar n) = true ∧ hexVal (hexDigitChar n) = n ∧
      isJsSpace (hexDigitChar n) = false ∧
      charToLower (hexDigitChar n) = hexDigitChar n := by decide

/-- Parsing then reprinting a lowercase hex digit is the identity. -/
theorem hexVal_round (c : Char) (hc : isLowerHexDigit c = true) :
    hexDigitChar (hexVal c) = c ∧ hexVal c < 16 := by
  have e0 : Char.toNat '0' = 48 := rfl
  have ea : Char.toNat 'a' = 97 := rfl
  unfold isLowerHexDigit at hc
  rw [Bool.or_eq_true] at hc
  rcases hc with hd | hr
  · have hb : 48 ≤ c.toNat ∧ c.toNat ≤ 57 := by
      unfold Char.isDigit at hd
      rw [Bool.and_eq_true, decide_eq_true_eq, decide_eq_true_eq] at hd
      exact ⟨hd.1, hd.2⟩
    have hv : hexVal c = c.toNat - 48 := by
      unfold hexVal
      rw [if_pos hd, e0]
    refine ⟨?_, ?_⟩
    · rw [hv]
      unfold hexDigitChar
      rw [if_pos (by omega : c.toNat - 48 < 10), e0,
        show 48 + (c.toNat - 48) = c.toNat from by omega]
      exact Char.ofNat_toNat c
    · rw [hv]
      omega
  · have hb : 97 ≤ c.toNat ∧ c.toNat ≤ 102 := by
      rw [Bool.and_eq_true, decide_eq_true_eq, decide_eq_true_eq] at hr
      exact ⟨hr.1, hr.2⟩
    have hnd : c.isDigit = false := by
      cases hcd : c.isDigit with
      | false => rfl
      | true =>
        have hb2 : c.toNat ≤ 57 := by
          unfold Char.isDigit at hcd
          rw [Bool.and_eq_true, decide_eq_true_eq, decide_eq_true_eq] at hcd
          exact hcd.2
        exact absurd hb2 (by omega)
    have hv : hexVal c = c.toNat - 97 + 10 := by
      unfold hexVal
      rw [if_neg (by simp [hnd]), ea]
    refine ⟨?_, ?_⟩
    · rw [hv]
      unfold hexDigitChar
      rw [if_neg (by omega : ¬(c.toNat - 97 + 10 < 10)), ea,
        show 97 + (c.toNat - 97 + 10) - 10 = c.toNat from by omega]
      exact Char.ofNat_toNat c
    · rw [hv]
      omega

theorem toByte_natCast (n : ℕ) (h : n ≤ 255) : toByte (n : ℚ) = n := by
  unfold toByte jsRound
  rw [show ((n : ℚ)) = ((n : ℤ) : ℚ) by push_cast; ring, Int.floor_int_add]
  norm_num
  omega

theorem rgbToHex_data (r g b : ℕ) (hr : r ≤ 255) (hg : g ≤ 255)
    (hb : b ≤ 255) :
    (rgbToHex (r : ℚ) (g : ℚ) (b : ℚ)).data
      = ['#', hexDigitChar (r / 16), hexDigitChar (r % 16),
          hexDigitChar (g / 16), hexDigitChar (g % 16),
          hexDigitChar (b / 16), hexDigitChar (b % 16)] := by
  unfold rgbToHex
  rw [toByte_natCast r hr, toByte_natCast g hg, toByte_natCast b hb]
  simp [String.data_append, hexPairStr]

/-- Every character `rgbToHex` emits is neither white space nor changed
by lowercasing. -/
theorem rgbToHex_chars (r g b : ℕ) (hr : r ≤ 255) (hg : g ≤ 255)
    (hb : b ≤ 255) :
    ∀ c ∈ (rgbToHex (r : ℚ) (g : ℚ) (b : ℚ)).data,
      isJsSpace c = false ∧ charToLower c = c := by
  intro c hc
  rw [rgbToHex_data r g b hr hg hb] at hc
  have d1 : r / 16 < 16 := by
    rw [Nat.div_lt_iff_lt_mul (by norm_num)]; omega
  have d2 : r % 16 < 16 := Nat.mod_lt _ (by norm_num)
  have d3 : g / 16 < 16 := by
    rw [Nat.div_lt_iff_lt_mul (by norm_num)]; omega
  have d4 : g % 16 < 16 := Nat.mod_lt _ (by norm_num)
  have d5 : b / 16 < 16 := by
    rw [Nat.div_lt_iff_lt_mul (by norm_num)]; omega
  have d6 : b % 16 < 16 := Nat.mod_lt _ (by norm_num)
  simp only [List.mem_cons, List.not_mem_nil, or_false] at hc
  rcases hc with rfl | rfl | rfl | rfl | rfl | rfl | rfl
  · exact ⟨by decide, by decide⟩
  · exact ⟨(digitChar_spec _ d1).2.2.1, (digitChar_spec _ d1).2.2.2⟩
  · exact ⟨(digitChar_spec _ d2).2.2.1, (digitChar_spec _ d2).2.2.2⟩
  · exact ⟨(digitChar_spec _ d3).2.2.1, (digitChar_spec _ d3).2.2.2⟩
  · exact ⟨(digitChar_spec _ d4).2.2.1, (digitChar_spec _ d4).2.2.2⟩
  · exact ⟨(digitChar_spec _ d5).2.2.1, (digitChar_spec _ d5).2.2.2⟩
  · exact ⟨(digitChar_spec _ d6).2.2.1, (digitChar_spec _ d6).2.2.2⟩

/-- `rgbToHex` output is already normalized. -/
theorem normalizeHex_rgbToHex (r g b : ℕ) (hr : r ≤ 255) (hg : g ≤ 255)
    (hb : b ≤ 255) :
    normalizeHex (rgbToHex (r : ℚ) (g : ℚ) (b : ℚ)) = rgbToHex (r : ℚ) (g : ℚ) (b : ℚ) := by
  have hchars := rgbToHex_chars r g b hr hg hb
  have htrim : jsTrim (rgbToHex (r : ℚ) (g : ℚ) (b : ℚ)) = rgbToHex (r : ℚ) (g : ℚ) (b : ℚ) :=
    jsTrim_eq_self _ (fun c hc => (hchars c hc).1)
  have hne : ¬(rgbToHex (r : ℚ) (g : ℚ) (b : ℚ) = "") := by
    intro he
    have := congrArg String.data he
    rw [rgbToHex_data r g b hr hg hb] at this
    exact List.noConfusion this
  have hstart : startsWithHash (rgbToHex (r : ℚ) (g : ℚ) (b : ℚ)) = true := by
    unfold startsWithHash
    rw [rgbToHex_data r g b hr hg hb]
    rfl
  unfold normalizeHex
  rw [htrim, if_neg hne, if_pos hstart]
  exact jsToLower_eq_self _ (fun c hc => (hchars c hc).2)

/-- Formatting an in-range integer triple and parsing it back restores the
triple exactly. -/
theorem hexToRgbSafe_rgbToHex (r g b : ℕ) (hr : r ≤ 255) (hg : g ≤ 255)
    (hb : b ≤ 255) :
    hexToRgbSafe (rgbToHex (r : ℚ) (g : ℚ) (b : ℚ)) = some ⟨r, g, b⟩ := by
  have d1 : r / 16 < 16 := by rw [Nat.div_lt_iff_lt_mul (by norm_num)]; omega
  have d2 : r % 16 < 16 := Nat.mod_lt _ (by norm_num)
  have d3 : g / 16 < 16 := by rw [Nat.div_lt_iff_lt_mul (by norm_num)]; omega
  have d4 : g % 16 < 16 := Nat.mod_lt _ (by norm_num)
  have d5 : b / 16 < 16 := by rw [Nat.div_lt_iff_lt_mul (by norm_num)]; omega
  have d6 : b % 16 < 16 := Nat.mod_lt _ (by norm_num)
  unfold hexToRgbSafe
  rw [normalizeHex_rgbToHex r g b hr hg hb, rgbToHex_data r g b hr hg hb]
  simp only [(digitChar_spec _ d1).1, (digitChar_spec _ d2).1,
    (digitChar_spec _ d3).1, (digitChar_spec _ d4).1,
    (digitChar_spec _ d5).1, (digitChar_spec _ d6).1,
    Bool.and_self, Bool.and_true, if_true]
  unfold hexPairVal
  rw [(digitChar_spec _ d1).2.1, (digitChar_spec _ d2).2.1,
    (digitChar_spec _ d3).2.1, (digitChar_spec _ d4).2.1,
    (digitChar_spec _ d5).2.1, (digitChar_spec _ d6).2.1,
    Nat.div_add_mod, Nat.div_add_mod, Nat.div_add_mod]

/-- Reprinting a successfully parsed hex string reproduces its normalized
form. -/
theorem rgbToHex_hexToRgbSafe (h : String) (c : RgbN)
    (hh : hexToRgbSafe h = some c) :
    rgbToHex (c.r : ℚ) (c.g : ℚ) (c.b : ℚ) = normalizeHex h := by
  unfold hexToRgbSafe at hh
  split at hh
  · next d1 d2 d3 d4 d5 d6 heq =>
    split at hh
    · next hcond =>
      simp only [Bool.and_eq_true] at hcond
      obtain ⟨⟨⟨⟨⟨h1, h2⟩, h3⟩, h4⟩, h5⟩, h6⟩ := hcond
      obtain ⟨e1, v1⟩ := hexVal_round d1 h1
      obtain ⟨e2, v2⟩ := hexVal_round d2 h2
      obtain ⟨e3, v3⟩ := hexVal_round d3 h3
      obtain ⟨e4, v4⟩ := hexVal_round d4 h4
      obtain ⟨e5, v5⟩ := hexVal_round d5 h5
      obtain ⟨e6, v6⟩ := hexVal_round d6 h6
      obtain rfl := (Option.some.inj hh).symm
      have b12 : hexPairVal d1 d2 ≤ 255 := by unfold hexPairVal; omega
      have b34 : hexPairVal d3 d4 ≤ 255 := by unfold hexPairVal; omega
      have b56 : hexPairVal d5 d6 ≤ 255 := by unfold hexPairVal; omega
      apply String.ext
      rw [heq]
      rw [show ((⟨hexPairVal d1 d2, hexPairVal d3 d4, hexPairVal d5 d6⟩ :
            RgbN)).r = hexPairVal d1 d2 from rfl,
        show ((⟨hexPairVal d1 d2, hexPairVal d3 d4, hexPairVal d5 d6⟩ :
            RgbN)).g = hexPairVal d3 d4 from rfl,
        show ((⟨hexPairVal d1 d2, hexPairVal d3 d4, hexPairVal d5 d6⟩ :
            RgbN)).b = hexPairVal d5 d6 from rfl]
      rw [rgbToHex_data _ _ _ b12 b34 b56]
      have q1 : hexPairVal d1 d2 / 16 = hexVal d1 := by
        unfold hexPairVal
        rw [Nat.mul_add_div (by norm_num), Nat.div_eq_of_lt v2, Nat.add_zero]
      have q2 : hexPairVal d1 d2 % 16 = hexVal d2 := by
        unfold hexPairVal
        rw [Nat.mul_add_mod]
        exact Nat.mod_eq_of_lt v2
      have q3 : hexPairVal d3 d4 / 16 = hexVal d3 := by
        unfold hexPairVal
        rw [Nat.mul_add_div (by norm_num), Nat.div_eq_of_lt v4, Nat.add_zero]
      have q4 : hexPairVal d3 d4 % 16 = hexVal d4 := by
        unfold hexPairVal
        rw [Nat.mul_add_mod]
        exact Nat.mod_eq_of_lt v4
      have q5 : hexPairVal d5 d6 / 16 = hexVal d5 := by
        unfold hexPairVal
        rw [Nat.mul_add_div (by norm_num), Nat.div_eq_of_lt v6, Nat.add_zero]
      have q6 : hexPairVal d5 d6 % 16 = hexVal d6 := by
        unfold hexPairVal
        rw [Nat.mul_add_mod]
        exact Nat.mod_eq_of_lt v6
      rw [q1, q2, q3, q4, q5, q6, e1, e2, e3, e4, e5, e6]
    · exact absurd hh (by simp)
  · exact absurd hh (by simp)

/-- When the normalized input does not match `^#[0-9a-f]{6}$`, parsing
fails. -/
theorem hexToRgbSafe_eq_none (h : String)
    (hc : isCanonicalHex (normalizeHex h) = false) :
    hexToRgbSafe h = none := by
  unfold hexToRgbSafe
  split
  · next d1 d2 d3 d4 d5 d6 heq =>
    split
    · next hcond =>
      exfalso
      simp only [Bool.and_eq_true] at hcond
      obtain ⟨⟨⟨⟨⟨h1, h2⟩, h3⟩, h4⟩, h5⟩, h6⟩ := hcond
      have ht : isCanonicalHex (normalizeHex h) = true := by
        unfold isCanonicalHex
        rw [heq]
        simp [List.all_cons, h1, h2, h3, h4, h5, h6]
      rw [hc] at ht
      exact Bool.noConfusion ht
    · rfl
  · rfl

end CW

theorem mem_dedupFirstAux [DecidableEq α] :
    ∀ (l seen : List α) (a : α),
      a ∈ dedupFirstAux seen l ↔ a ∈ l ∧ a ∉ seen := by
  intro l
  induction l with
  | nil => simp [dedupFirstAux]
  | cons b t ih =>
    intro seen a
    unfold dedupFirstAux
    by_cases hb : b ∈ seen
    · rw [if_pos hb, ih]
      constructor
      · rintro ⟨ha, hs⟩
        exact ⟨List.mem_cons_of_mem b ha, hs⟩
      · rintro ⟨ha, hs⟩
        rcases List.mem_cons.mp ha with rfl | ha
        · exact absurd hb hs
        · exact ⟨ha, hs⟩
    · rw [if_neg hb]
      simp only [List.mem_cons, ih, List.mem_append, List.mem_singleton]
      constructor
      · rintro (rfl | ⟨ha, hs⟩)
        · exact ⟨Or.inl rfl, hb⟩
        · exact ⟨Or.inr ha, fun h => hs (Or.inl h)⟩
      · rintro ⟨rfl | ha, hs⟩
        · exact Or.inl rfl
        · by_cases hab : a = b
          · exact Or.inl hab
          · refine Or.inr ⟨ha, ?_⟩
            rintro (h | h | h)
            · exact hs h
            · exact hab h
            · exact List.not_mem_nil a h

theorem mem_dedupFirst [DecidableEq α] (l : List α) (a : α) :
    a ∈ dedupFirst l ↔ a ∈ l := by
  rw [dedupFirst, mem_dedupFirstAux]
  simp

theorem dedupFirstAux_append_singleton [DecidableEq α] :
    ∀ (l seen : List α) (a : α),
      dedupFirstAux seen (l ++ [a])
        = dedupFirstAux seen l ++ (if a ∈ seen ∨ a ∈ l then [] else [a]) := by
  intro l
  induction l with
  | nil =>
    intro seen a
    by_cases h : a ∈ seen
    · simp [dedupFirstAux, h]
    · simp [dedupFirstAux, h]
  | cons b t ih =>
    intro seen a
    simp only [List.cons_append, dedupFirstAux, List.append_eq]
    by_cases hb : b ∈ seen
    · rw [if_pos hb, if_pos hb, ih]
      congr 1
      by_cases hab : a = b
      · subst hab
        simp [hb]
      · simp [List.mem_cons, hab]
    · rw [if_neg hb, if_neg hb, ih, List.cons_append]
      have hcond : (a ∈ seen ++ [b] ∨ a ∈ t) ↔ (a ∈ seen ∨ a ∈ b :: t) := by
        simp only [List.mem_append, List.mem_cons, List.mem_singleton]
        tauto
      rw [if_congr hcond rfl rfl]

theorem dedupFirst_append_singleton [DecidableEq α] (l : List α) (a : α) :
    dedupFirst (l ++ [a])
      = dedupFirst l ++ (if a ∈ l then [] else [a]) := by
  rw [dedupFirst, dedupFirst, dedupFirstAux_append_singleton]
  congr 1
  simp

theorem lookup_map_self {β : Type} (K : List String) (F : String → β)
    (g : String) :
    (K.map (fun k => (k, F k))).lookup g
      = if g ∈ K then some (F g) else none := by
  induction K with
  | nil => simp
  | cons k K ih =>
    by_cases h : g = k
    · subst h
      simp [List.lookup]
    · have hb : (g == k) = false := beq_eq_false_iff_ne.mpr h
      by_cases hm : g ∈ K
      · simp [List.lookup, hb, hm, ih]
      · simp [List.lookup, hb, hm, ih, h]

namespace SB

/-- The `byG` map holds, for each grapheme in first-occurrence order, the
subsequence of responses with that grapheme. -/
theorem groupByG_eq (rs : List PickerResponse) :
    groupByG rs = (dedupFirst (rs.map (fun r => r.grapheme))).map
      (fun g => (g, rs.filter (fun r => r.grapheme = g))) := by
  induction rs using List.reverseRecOn with
  | nil => rfl
  | append_singleton rs r ih =>
    rw [groupByG, List.foldl_append, List.foldl_cons, List.foldl_nil,
      show List.foldl groupPush [] rs = groupByG rs from rfl, ih,
      List.map_append, List.map_cons, List.map_nil,
      dedupFirst_append_singleton]
    by_cases hmem : r.grapheme ∈ rs.map (fun r => r.grapheme)
    · rw [if_pos hmem, List.append_nil]
      have hlk : ((dedupFirst (rs.map (fun r => r.grapheme))).map
          (fun g => (g, rs.filter (fun r' => r'.grapheme = g)))).lookup
            r.grapheme
          = some (rs.filter (fun r' => r'.grapheme = r.grapheme)) := by
        rw [lookup_map_self, if_pos ((mem_dedupFirst _ _).mpr hmem)]
      rw [groupPush, if_pos (by rw [hlk]; rfl), List.map_map]
      apply List.map_congr_left
      intro g hg
      by_cases hgr : g = r.grapheme
      · subst hgr
        simp only [Function.comp_apply, if_pos rfl]
        rw [List.filter_append]
        simp
      · simp only [Function.comp_apply, if_neg hgr]
        rw [List.filter_append]
        have : List.filter (fun r' => decide (r'.grapheme = g)) [r] = [] := by
          simp [List.filter, Ne.symm hgr]
        rw [this, List.append_nil]
    · rw [if_neg hmem]
      have hlk : ((dedupFirst (rs.map (fun r => r.grapheme))).map
          (fun g => (g, rs.filter (fun r' => r'.grapheme = g)))).lookup
            r.grapheme = none := by
        rw [lookup_map_self,
          if_neg (fun h => hmem ((mem_dedupFirst _ _).mp h))]
      rw [groupPush, if_neg (by rw [hlk]; simp), List.map_append]
      congr 1
      · apply List.map_congr_left
        intro g hg
        have hgr : g ≠ r.grapheme :=
          fun h => hmem (h ▸ (mem_dedupFirst _ _).mp hg)
        rw [List.filter_append]
        have : List.filter (fun r' => decide (r'.grapheme = g)) [r] = [] := by
          simp [List.filter, Ne.symm hgr]
        rw [this, List.append_nil]
      · have hfil : rs.filter (fun r' => r'.grapheme = r.grapheme) = [] := by
          rw [List.filter_eq_nil_iff]
          intro x hx
          simp only [decide_eq_true_eq]
          intro h
          exact hmem (List.mem_map.mpr ⟨x, hx, h⟩)
        rw [List.map_cons, List.map_nil, List.filter_append, hfil,
          List.nil_append]
        simp [List.filter]

theorem map_const_range {α : Type} (n : ℕ) (v : α) :
    (List.range n).map (fun _ => v) = List.replicate n v := by
  induction n with
  | zero => rfl
  | succ k ih =>
    rw [List.range_succ, List.map_append, ih, List.replicate_succ']
    rfl

theorem specSlots_nil (repeats : ℕ) :
    specSlots [] repeats = List.replicate repeats none := by
  show (List.range repeats).map (fun _ => (none : Option Rgb))
    = List.replicate repeats none
  exact map_const_range repeats none

theorem lastColoredAt_append (rs : List PickerResponse) (r : PickerResponse)
    (i : ℕ) :
    lastColoredAt (rs ++ [r]) i
      = (if r.isNoColor = false ∧ r.repeatIndex = (i : ℤ) then r.rgb
          else none).or (lastColoredAt rs i) := by
  unfold lastColoredAt
  rw [List.filterMap_append]
  cases hnew : (if r.isNoColor = false ∧ r.repeatIndex = (i : ℤ) then r.rgb
      else none) with
  | none =>
    simp only [List.filterMap, hnew]
    rw [List.append_nil, Option.none_or]
  | some c =>
    simp only [List.filterMap, hnew]
    rw [List.getLast?_concat]
    rfl

theorem fillSlots_append (repeats : ℕ) (rs : List PickerResponse)
    (r : PickerResponse) :
    fillSlots repeats (rs ++ [r]) = slotStep repeats (fillSlots repeats rs) r := by
  rw [fillSlots, List.foldl_append, List.foldl_cons, List.foldl_nil]
  rfl

theorem set_map_range {α : Type} (f : ℕ → α) (n k : ℕ) (v : α) (hk : k < n) :
    ((List.range n).map f).set k v
      = (List.range n).map (fun i => if i = k then v else f i) := by
  apply List.ext_get?
  intro m
  by_cases hm : m = k
  · subst hm
    rw [List.get?_set_eq, List.get?_map, List.get?_map, List.get?_range hk]
    simp
  · rw [List.get?_set_ne _ _ (fun h => hm h.symm), List.get?_map,
      List.get?_map]
    by_cases hmn : m < n
    · rw [List.get?_range hmn]
      simp [hm]
    · rw [List.get?_eq_none.mpr (by rw [List.length_range]; omega)]
      rfl

theorem slotStep_spec (repeats : ℕ) (rs : List PickerResponse)
    (r : PickerResponse) :
    slotStep repeats (specSlots rs repeats) r = specSlots (rs ++ [r]) repeats := by
  unfold slotStep
  cases hnc : r.isNoColor with
  | true =>
    rw [if_pos rfl]
    unfold specSlots
    refine (List.map_congr_left ?_).symm
    intro i _
    rw [lastColoredAt_append, if_neg (by simp [hnc]), Option.none_or]
  | false =>
    rw [if_neg Bool.false_ne_true]
    cases hrgb : r.rgb with
    | none =>
      have hpt : ∀ i ∈ List.range repeats,
          lastColoredAt (rs ++ [r]) i = lastColoredAt rs i := by
        intro i _
        rw [lastColoredAt_append]
        by_cases hc : (r.isNoColor = false ∧ r.repeatIndex = (i : ℤ))
        · rw [if_pos hc, hrgb, Option.none_or]
        · rw [if_neg hc, Option.none_or]
      exact (List.map_congr_left hpt).symm
    | some c =>
      show (if 0 ≤ r.repeatIndex ∧ r.repeatIndex < (repeats : ℤ) then
          (specSlots rs repeats).set r.repeatIndex.toNat (some c)
        else specSlots rs repeats) = specSlots (rs ++ [r]) repeats
      by_cases hin : (0 ≤ r.repeatIndex ∧ r.repeatIndex < (repeats : ℤ))
      · rw [if_pos hin]
        have hk : r.repeatIndex.toNat < repeats := by omega
        unfold specSlots
        rw [set_map_range _ _ _ _ hk]
        apply List.map_congr_left
        intro i hi
        rw [lastColoredAt_append]
        by_cases hRi : i = r.repeatIndex.toNat
        · rw [if_pos hRi, if_pos ⟨hnc, by omega⟩, hrgb]
          rfl
        · rw [if_neg hRi, if_neg (fun h => hRi (by omega)), Option.none_or]
      · rw [if_neg hin]
        have hpt : ∀ i ∈ List.range repeats,
            lastColoredAt (rs ++ [r]) i = lastColoredAt rs i := by
          intro i hi
          rw [List.mem_range] at hi
          rw [lastColoredAt_append,
            if_neg (fun h => hin (by omega)), Option.none_or]
        exact (List.map_congr_left hpt).symm

theorem fillSlots_eq_specSlots (repeats : ℕ) (rs : List PickerResponse) :
    fillSlots repeats rs = specSlots rs repeats := by
  induction rs using List.reverseRecOn with
  | nil => rw [fillSlots, List.foldl_nil, specSlots_nil]
  | append_singleton rs r ih => rw [fillSlots_append, ih, slotStep_spec]

/-- An out-of-range response leaves the slots untouched. -/
theorem slotStep_out (repeats : ℕ) (slots : List (Option Rgb))
    (r : PickerResponse) (h : inRange repeats r = false) :
    slotStep repeats slots r = slots := by
  unfold slotStep
  cases r.isNoColor with
  | true => rw [if_pos rfl]
  | false =>
    rw [if_neg Bool.false_ne_true]
    cases r.rgb with
    | none => rfl
    | some c =>
      show (if 0 ≤ r.repeatIndex ∧ r.repeatIndex < (repeats : ℤ) then
          slots.set r.repeatIndex.toNat (some c)
        else slots) = slots
      rw [if_neg (of_decide_eq_false h)]

theorem fillSlots_filter_inRange (repeats : ℕ) (rs : List PickerResponse) :
    fillSlots repeats rs = fillSlots repeats (rs.filter (inRange repeats)) := by
  unfold fillSlots
  generalize List.replicate repeats none = acc
  induction rs generalizing acc with
  | nil => rfl
  | cons r rs ih =>
    rw [List.foldl_cons]
    cases hr : inRange repeats r with
    | true =>
      rw [List.filter_cons_of_pos hr, List.foldl_cons]
      exact ih _
    | false =>
      rw [List.filter_cons_of_neg (by rw [hr]; exact Bool.false_ne_true),
        slotStep_out repeats acc r hr]
      exact ih _

theorem fillSlots_zero (rs : List PickerResponse) : fillSlots 0 rs = [] := by
  unfold fillSlots
  rw [show List.replicate 0 (none : Option Rgb) = [] from rfl]
  induction rs with
  | nil => rfl
  | cons r rs ih =>
    rw [List.foldl_cons]
    have hstep : slotStep 0 [] r = [] := by
      unfold slotStep
      cases r.isNoColor with
      | true => rw [if_pos rfl]
      | false =>
        rw [if_neg Bool.false_ne_true]
        cases r.rgb with
        | none => rfl
        | some c =>
          show (if 0 ≤ r.repeatIndex ∧ r.repeatIndex < ((0 : ℕ) : ℤ) then
              ([] : List (Option Rgb)).set r.repeatIndex.toNat (some c)
            else []) = []
          split <;> rfl
    rw [hstep, ih]

theorem pairwiseDeltas_eq_map (cs : List Rgb) :
    pairwiseDeltas cs
      = (allPairs cs).map (fun p => deltaE76 (rgbToLab p.1) (rgbToLab p.2)) := by
  induction cs with
  | nil => rfl
  | cons c t ih =>
    simp only [pairwiseDeltas, allPairs, List.map_append, List.map_map]
    rw [ih]
    rfl

theorem allPairs_nil_iff {α : Type} (cs : List α) :
    allPairs cs = [] ↔ cs.length ≤ 1 := by
  cases cs with
  | nil => simp [allPairs]
  | cons a t =>
    cases t with
    | nil => simp [allPairs]
    | cons b t2 =>
      simp only [allPairs, List.map_cons, List.cons_append, List.length_cons]
      constructor
      · intro h
        exact absurd h (List.cons_ne_nil _ _)
      · intro h
        omega

theorem meanOfR_pairwise (slots : List (Option Rgb)) :
    meanOfR (pairwiseDeltas (slots.filterMap id)) = specMeanDeltaE slots := by
  rw [pairwiseDeltas_eq_map]
  unfold specMeanDeltaE
  by_cases h : (slots.filterMap id).length ≤ 1
  · rw [if_pos h, (allPairs_nil_iff _).mpr h]
    simp [meanOfR]
  · rw [if_neg h]
    have hne : allPairs (slots.filterMap id) ≠ [] :=
      fun he => h ((allPairs_nil_iff _).mp he)
    unfold meanOfR
    rw [if_pos (by
      rw [List.length_map]
      exact fun h0 => hne (List.length_eq_zero.mp h0))]
    rw [List.sum_eq_foldl, List.length_map]

theorem mkRow_eq_specRow (repeats : ℕ) (rs : List PickerResponse)
    (g : String) :
    mkRow repeats g (rs.filter (fun r => r.grapheme = g))
      = specRow rs repeats g := by
  simp only [mkRow, specRow]
  rw [fillSlots_eq_specSlots, meanOfR_pairwise]

theorem mkRow_zero_mean (g : String) (grp : List PickerResponse) :
    (mkRow 0 g grp).meanDeltaE = 0 := by
  simp only [mkRow]
  rw [fillSlots_zero]
  simp [meanOfR, pairwiseDeltas]

theorem foldl_rows_zero (rows : List PickerScoreRow)
    (h : ∀ x ∈ rows, x.meanDeltaE = 0) :
    ∀ acc : ℝ, rows.foldl (fun a r => a + r.meanDeltaE) acc = acc := by
  induction rows with
  | nil => intro acc; rfl
  | cons x t ih =>
    intro acc
    rw [List.foldl_cons, h x (List.mem_cons_self x t), add_zero]
    exact ih (fun y hy => h y (List.mem_cons_of_mem x hy)) acc

theorem foldl_add_rtMs (l : List CongruencyResponse) :
    ∀ acc : ℚ, l.foldl (fun a c => a + c.rtMs) acc
      = acc + (l.map (fun c => c.rtMs)).sum := by
  induction l with
  | nil => intro acc; simp
  | cons c t ih =>
    intro acc
    rw [List.foldl_cons, List.map_cons, List.sum_cons, ih, add_assoc]

theorem sum_map_div (l : List ℚ) (d : ℚ) :
    (l.map (fun x => x / d)).sum = l.sum / d := by
  induction l with
  | nil => simp
  | cons a t ih => rw [List.map_cons, List.sum_cons, List.sum_cons, ih, add_div]

theorem shuffleRandGo_perm (rand : ℕ → ℕ) :
    ∀ (i k : ℕ) (l : List α), (shuffleRandGo rand i k l).Perm l := by
  intro i
  induction i with
  | zero => intro k l; exact List.Perm.refl l
  | succ j ih => intro k l; exact (ih _ _).trans (swapL_perm ..)

theorem getD_mem_or {α : Type} (l : List α) (n : ℕ) (d : α) :
    l.getD n d ∈ l ∨ l.getD n d = d := by
  cases h : l.get? n with
  | none =>
    right
    simp [List.getD, ← List.get?_eq_getElem?, h]
  | some x =>
    left
    have hx : l.getD n d = x := by
      simp [List.getD, ← List.get?_eq_getElem?, h]
    rw [hx]
    exact List.get?_mem h

theorem pickLoop_all_eq (rand : ℕ → ℕ) (all : List Rgb) (target : Rgb)
    (h : ∀ c ∈ all, c = target) :
    ∀ (t k : ℕ), (pickLoop rand all target k t).1 = target := by
  intro t
  induction t with
  | zero =>
    intro k
    show all.getD 0 target = target
    rcases getD_mem_or all 0 target with hm | hd
    · exact h _ hm
    · exact hd
  | succ t ih =>
    intro k
    have hc : all.getD (rand k * all.length / 9007199254740992) target
        = target := by
      rcases getD_mem_or all (rand k * all.length / 9007199254740992) target
        with hm | hd
      · exact h _ hm
      · exact hd
    show (if all.getD (rand k * all.length / 9007199254740992) target ≠ target
        then (all.getD (rand k * all.length / 9007199254740992) target, k + 1)
        else pickLoop rand all target (k + 1) t).1 = target
    rw [hc, if_neg (not_not_intro rfl)]
    exact ih (k + 1)

theorem pickDifferent_fst (rand : ℕ → ℕ) (k : ℕ) (all : List Rgb)
    (target : Rgb) (h : ∀ c ∈ all, c = target) :
    (pickDifferentColor rand k all target).1 = target := by
  unfold pickDifferentColor
  split
  · rfl
  · exact pickLoop_all_eq rand all target h 20 k

theorem lookup_mem_snd {β : Type} (m : List (String × β)) (g : String)
    (v : β) (h : m.lookup g = some v) : v ∈ m.map (fun e => e.2) := by
  induction m with
  | nil => simp at h
  | cons e m ih =>
    obtain ⟨ky, w⟩ := e
    cases hgk : (g == ky) with
    | true =>
      simp only [List.lookup, hgk] at h
      obtain rfl := Option.some.inj h
      simp
    | false =>
      simp only [List.lookup, hgk] at h
      simpa using Or.inr (by simpa using ih h)

theorem buildForG_mem (rand : ℕ → ℕ) (per : ℕ) (m : List (String × Rgb))
    (g : String) (target : Rgb)
    (hcol : ∀ c ∈ m.map (fun e => e.2), c = target)
    (hg : m.lookup g = some target) :
    ∀ (start : List CongruencyTrial × ℕ),
      (∀ t ∈ start.1, t.isCongruent = false →
        m.lookup t.grapheme = some t.shownRgb) →
      ∀ t ∈ (buildForG rand per (m.map (fun e => e.2)) g target start).1,
        t.isCongruent = false → m.lookup t.grapheme = some t.shownRgb := by
  unfold buildForG
  generalize List.range per = idxs
  induction idxs with
  | nil => intro start hstart; exact hstart
  | cons i idxs ih =>
    intro start hstart
    rw [List.foldl_cons]
    apply ih
    intro t ht
    rcases List.mem_append.mp ht with hin | hin
    · exact hstart t hin
    · rcases List.mem_cons.mp hin with rfl | hin2
      · intro hfalse
        exact absurd hfalse (by simp)
      · rcases List.mem_cons.mp hin2 with rfl | hin3
        · intro _
          show m.lookup g = some
            (pickDifferentColor rand start.2 (m.map (fun e => e.2)) target).1
          rw [pickDifferent_fst rand start.2 _ target hcol]
          exact hg
        · exact absurd hin3 (List.not_mem_nil t)

theorem builtCT_mem (rand : ℕ → ℕ) (per : ℕ) (m : List (String × Rgb))
    (hcol : ∀ c ∈ m.map (fun e => e.2), ∀ c2 ∈ m.map (fun e => e.2), c = c2) :
    ∀ (gs : List String) (start : List CongruencyTrial × ℕ),
      (∀ t ∈ start.1, t.isCongruent = false →
        m.lookup t.grapheme = some t.shownRgb) →
      ∀ t ∈ (gs.foldl (fun acc g =>
          match m.lookup g with
          | some target => buildForG rand per (m.map (fun e => e.2)) g target acc
          | none => acc) start).1,
        t.isCongruent = false → m.lookup t.grapheme = some t.shownRgb := by
  intro gs
  induction gs with
  | nil => intro start hs; exact hs
  | cons g gs ih =>
    intro start hs
    rw [List.foldl_cons]
    cases hlk : m.lookup g with
    | none => exact ih start hs
    | some target =>
      apply ih
      have htv : target ∈ m.map (fun e => e.2) := lookup_mem_snd m g target hlk
      exact buildForG_mem rand per m g target
        (fun c hc => hcol c hc target htv) hlk start hs

end SB

end Syn

/-! ## Claim theorems -/

namespace Syn

/-- C2, amended: for stimulus lists without duplicates, the output of
`buildPickerTrials` is a permutation of the full cross product
`pickerPlan`, its length is `repeats × (|graphemes| + |weekdays|)`, and
every identity key `(kind, stimulusText, repeatIndex)` of the cross
product appears exactly once — the shuffle neither drops nor duplicates a
trial. (Without the no-duplicate hypotheses the multiset-permutation and
length parts still hold, but a stimulus listed twice yields its keys
twice, which is what the counterexample exhibits.) -/
theorem buildPickerTrials_complete (graphemes weekdays : List String)
    (repeats : ℕ) (seed : Option ℕ) (nowMs : ℕ)
    (hg : graphemes.Nodup) (hw : weekdays.Nodup) :
    (BT.buildPickerTrials graphemes weekdays repeats seed nowMs).Perm
        (BT.pickerPlan graphemes weekdays repeats) ∧
      (BT.buildPickerTrials graphemes weekdays repeats seed nowMs).length
        = repeats * (graphemes.length + weekdays.length) ∧
      ∀ t ∈ BT.pickerPlan graphemes weekdays repeats,
        (BT.buildPickerTrials graphemes weekdays repeats seed nowMs).count t = 1 := by
  have hperm : (BT.buildPickerTrials graphemes weekdays repeats seed nowMs).Perm
      (BT.pickerPlan graphemes weekdays repeats) :=
    BT.shuffle_perm (BT.pickerPlan graphemes weekdays repeats) seed nowMs
  refine ⟨hperm, ?_, ?_⟩
  · rw [hperm.length_eq, BT.length_pickerPlan]
  · intro t ht
    rw [hperm.count_eq]
    exact List.count_eq_one_of_mem (BT.nodup_pickerPlan hg hw repeats) ht

/-- Witness for C2: a concrete instantiation (two graphemes, one weekday,
two repeats, seed 5) with the no-duplicate hypotheses discharged by
computation. -/
theorem buildPickerTrials_complete_witness :
    (BT.buildPickerTrials ["A", "B"] ["Monday"] 2 (some 5) 0).Perm
        (BT.pickerPlan ["A", "B"] ["Monday"] 2) ∧
      (BT.buildPickerTrials ["A", "B"] ["Monday"] 2 (some 5) 0).length
        = 2 * ((["A", "B"] : List String).length + (["Monday"] : List String).length) ∧
      ∀ t ∈ BT.pickerPlan ["A", "B"] ["Monday"] 2,
        (BT.buildPickerTrials ["A", "B"] ["Monday"] 2 (some 5) 0).count t = 1 :=
  buildPickerTrials_complete ["A", "B"] ["Monday"] 2 (some 5) 0
    (by decide) (by decide)

/-- C2 counterexample: the claim quantifies over *every* graphemes list,
but with a duplicated stimulus the identity key `(grapheme, "A", 0)`
appears twice in the output of `buildPickerTrials` — not exactly once. -/
theorem buildPickerTrials_duplicate_key_appears_twice :
    (BT.buildPickerTrials ["A", "A"] [] 1 (some 0) 0).count
        ⟨"A", BT.Kind.grapheme, 0⟩ = 2 := by decide

/-- C3: `buildPickerTrials` is deterministic. With a seed supplied, the
result does not depend on the ambient `Date.now()` value (the only other
input of the shuffle's LCG), and the picker screen's trial list is a
function of the run id alone: the seed is derived purely from the run
id's character codes, so the same run id always yields the same trial
order. -/
theorem buildPickerTrials_deterministic :
    (∀ (graphemes weekdays : List String) (repeats s now1 now2 : ℕ),
        BT.buildPickerTrials graphemes weekdays repeats (some s) now1
          = BT.buildPickerTrials graphemes weekdays repeats (some s) now2) ∧
      ∀ (runId : String) (now1 now2 : ℕ),
        BT.trialsForRun runId now1 = BT.trialsForRun runId now2 := by
  constructor
  · intro graphemes weekdays repeats s now1 now2
    rfl
  · intro runId now1 now2
    rfl

/-- C4: `buildCanonicalMap` is first-wins. For every response list and
every stimulus, the canonical entry is the (lowercased, trimmed) hex of
the first grapheme-kind, non-no-color picker response with a nonblank hex
for that stimulus, in response order — so later colored responses never
overwrite it. Concretely: two responses for `"Q"` with hexes `#ff0000`
then `#00ff00` map `"Q"` to `#ff0000`. -/
theorem buildCanonicalMap_first_wins :
    (∀ (rs : List BT.PickerResponse) (g : String),
        (BT.buildCanonicalMap rs).lookup g
          = (rs.find? (BT.canonQualifies g)).map BT.canonVal) ∧
      (BT.buildCanonicalMap
            [⟨"Q", BT.Kind.grapheme, 0, 0, 0, false, some ⟨255, 0, 0⟩,
                some "#ff0000"⟩,
              ⟨"Q", BT.Kind.grapheme, 1, 1, 0, false, some ⟨0, 255, 0⟩,
                some "#00ff00"⟩]).lookup "Q"
        = some "#ff0000" := by
  constructor
  · intro rs g
    have h := BT.canonFold_lookup rs [] g
    simpa using h
  · decide

/-- C6: inserting a picker response into a run's response list is an
idempotent replace that preserves the at-most-one-per-identity invariant:
after inserting two responses with the same `(kind, stimulusText,
repeatIndex)` identity, exactly the second submission is stored for that
identity; any single insertion stores exactly one response for its
identity (never appending a duplicate); and insertion preserves the
at-most-one-per-identity invariant. -/
theorem insertResponse_idempotent_replace :
    (∀ (rs : List BT.PickerResponse) (r1 r2 : BT.PickerResponse),
        BT.identOf r1 = BT.identOf r2 →
        (BT.insertResponse (BT.insertResponse rs r1) r2).filter
            (fun x => BT.identOf x == BT.identOf r2) = [r2]) ∧
      (∀ (rs : List BT.PickerResponse) (r : BT.PickerResponse),
        (BT.insertResponse rs r).countP
            (fun x => BT.identOf x == BT.identOf r) = 1) ∧
      ∀ (rs : List BT.PickerResponse) (r : BT.PickerResponse)
        (k : BT.Kind × String × ℕ),
        (∀ k0, rs.countP (fun x => BT.identOf x == k0) ≤ 1) →
        (BT.insertResponse rs r).countP (fun x => BT.identOf x == k) ≤ 1 := by
  refine ⟨?_, ?_, ?_⟩
  · intro rs r1 r2 _
    exact BT.insertResponse_filter_ident (BT.insertResponse rs r1) r2
  · intro rs r
    exact BT.insertResponse_countP_self rs r
  · intro rs r k hinv
    exact BT.insertResponse_atMostOne rs r hinv k

/-- Witness for C6: a concrete double submission for the identity
`(grapheme, "A", 0)` (first red, then green) on a run that already holds
a response for `"B"`. -/
theorem insertResponse_idempotent_replace_witness :
    (BT.insertResponse
          (BT.insertResponse
            [⟨"B", BT.Kind.grapheme, 0, 0, 0, true, none, none⟩]
            ⟨"A", BT.Kind.grapheme, 0, 1, 0, false, some ⟨255, 0, 0⟩,
              some "#ff0000"⟩)
          ⟨"A", BT.Kind.grapheme, 0, 1, 5, false, some ⟨0, 255, 0⟩,
            some "#00ff00"⟩).filter
        (fun x => BT.identOf x
          == BT.identOf ⟨"A", BT.Kind.grapheme, 0, 1, 5, false,
              some ⟨0, 255, 0⟩, some "#00ff00"⟩)
      = [⟨"A", BT.Kind.grapheme, 0, 1, 5, false, some ⟨0, 255, 0⟩,
          some "#00ff00"⟩] ∧
    (BT.insertResponse
        [⟨"B", BT.Kind.grapheme, 0, 0, 0, true, none, none⟩]
        ⟨"A", BT.Kind.grapheme, 0, 1, 0, false, some ⟨255, 0, 0⟩,
          some "#ff0000"⟩).countP
      (fun x => BT.identOf x == (BT.Kind.grapheme, "A", 0)) ≤ 1 :=
  ⟨insertResponse_idempotent_replace.1
      [⟨"B", BT.Kind.grapheme, 0, 0, 0, true, none, none⟩]
      ⟨"A", BT.Kind.grapheme, 0, 1, 0, false, some ⟨255, 0, 0⟩, some "#ff0000"⟩
      ⟨"A", BT.Kind.grapheme, 0, 1, 5, false, some ⟨0, 255, 0⟩, some "#00ff00"⟩
      (by decide),
    insertResponse_idempotent_replace.2.2
      [⟨"B", BT.Kind.grapheme, 0, 0, 0, true, none, none⟩]
      ⟨"A", BT.Kind.grapheme, 0, 1, 0, false, some ⟨255, 0, 0⟩, some "#ff0000"⟩
      (BT.Kind.grapheme, "A", 0)
      (by
        intro k0
        rw [List.countP_cons, List.countP_nil]
        split <;> simp)⟩

/-- C9 counterexample: a run whose single grapheme picker response is
no-color gives not a single stimulus a canonical color, yet the fixed-N
builder still produces 40 trials (coloring them from the fallback
palette) instead of the empty list the claim requires in that case. -/
theorem congruencyTrials_forty_without_canonical :
    BT.buildCanonicalMap
        [⟨"A", BT.Kind.grapheme, 0, 0, 0, true, none, none⟩] = [] ∧
      (BT.congruencyTrials
          [⟨"A", BT.Kind.grapheme, 0, 0, 0, true, none, none⟩]).length
        = 40 := by
  constructor
  · rfl
  · decide

/-- C9, amended: the fixed-N congruency builder returns the empty trial
list exactly when the run has no grapheme-kind picker response with a
nonempty stimulus text (canonical colors are *not* required: stimuli
without one are colored from the fallback palette); otherwise it builds
exactly 40 trials, trial `i` showing stimulus `pick(graphemes, i*7+3)`
with `expectedMatch` true exactly when `i % 2 === 0`. -/
theorem congruencyTrials_fixed_n (rs : List BT.PickerResponse) :
    (BT.congruencyGraphemes rs = [] → BT.congruencyTrials rs = []) ∧
      (BT.congruencyGraphemes rs ≠ [] →
        (BT.congruencyTrials rs).length = 40 ∧
        ∀ i, i < 40 →
          ((BT.congruencyTrials rs).get? i).map
              (fun t => (t.stimulusText, t.expectedMatch))
            = some (BT.pick (BT.congruencyGraphemes rs) (i * 7 + 3),
                i % 2 == 0)) := by
  constructor
  · intro h
    rw [BT.congruencyTrials, if_pos h]
  · intro h
    rw [BT.congruencyTrials, if_neg h]
    constructor
    · rw [List.length_map, List.length_range]
    · intro i hi
      rw [List.get?_map, List.get?_range hi]
      rfl

/-- Witness for C9: a run with one colored response for `"A"`; the
builder produces 40 trials and trial 5 shows the expected stimulus and
parity-derived match flag. -/
theorem congruencyTrials_fixed_n_witness :
    (BT.congruencyTrials
          [⟨"A", BT.Kind.grapheme, 0, 0, 0, false, some ⟨255, 0, 0⟩,
              some "#ff0000"⟩]).length = 40 ∧
      ((BT.congruencyTrials
            [⟨"A", BT.Kind.grapheme, 0, 0, 0, false, some ⟨255, 0, 0⟩,
                some "#ff0000"⟩]).get? 5).map
          (fun t => (t.stimulusText, t.expectedMatch))
        = some (BT.pick (BT.congruencyGraphemes
              [⟨"A", BT.Kind.grapheme, 0, 0, 0, false, some ⟨255, 0, 0⟩,
                  some "#ff0000"⟩]) (5 * 7 + 3),
            5 % 2 == 0) := by
  have h := (congruencyTrials_fixed_n
      [⟨"A", BT.Kind.grapheme, 0, 0, 0, false, some ⟨255, 0, 0⟩,
          some "#ff0000"⟩]).2 (by decide)
  exact ⟨h.1, h.2 5 (by decide)⟩

/-- C8: hex/RGB conversion round-trips. For every string that
`hexToRgbSafe` parses, reprinting the parsed channels with `rgbToHex`
yields the input after case normalization (`normalizeHex`: lowercased,
`#`-prefixed); for integer channels in `[0, 255]`, parsing the printed
string restores the channels exactly; and `hexToRgbSafe` returns `null`
for any input whose normalization does not match `^#[0-9a-f]{6}$`. -/
theorem hex_rgb_round_trip :
    (∀ (h : String) (c : CW.RgbN), CW.hexToRgbSafe h = some c →
        CW.rgbToHex (c.r : ℚ) (c.g : ℚ) (c.b : ℚ) = CW.normalizeHex h) ∧
      (∀ r g b : ℕ, r ≤ 255 → g ≤ 255 → b ≤ 255 →
        CW.hexToRgbSafe (CW.rgbToHex (r : ℚ) (g : ℚ) (b : ℚ))
          = some ⟨r, g, b⟩) ∧
      ∀ h : String, CW.isCanonicalHex (CW.normalizeHex h) = false →
        CW.hexToRgbSafe h = none :=
  ⟨CW.rgbToHex_hexToRgbSafe,
    fun r g b hr hg hb => CW.hexToRgbSafe_rgbToHex r g b hr hg hb,
    CW.hexToRgbSafe_eq_none⟩

/-- Witness for C8: the mixed-case input `"#A1b2C3"` round-trips to its
lowercased normal form; the channels `(17, 34, 51)` survive a
print-then-parse round trip; `"zz"` fails to parse. -/
theorem hex_rgb_round_trip_witness :
    CW.rgbToHex (((⟨161, 178, 195⟩ : CW.RgbN).r : ℕ) : ℚ)
        (((⟨161, 178, 195⟩ : CW.RgbN).g : ℕ) : ℚ)
        (((⟨161, 178, 195⟩ : CW.RgbN).b : ℕ) : ℚ)
      = CW.normalizeHex "#A1b2C3" ∧
      CW.hexToRgbSafe (CW.rgbToHex ((17 : ℕ) : ℚ) ((34 : ℕ) : ℚ)
          ((51 : ℕ) : ℚ)) = some ⟨17, 34, 51⟩ ∧
      CW.hexToRgbSafe "zz" = none :=
  ⟨hex_rgb_round_trip.1 "#A1b2C3" ⟨161, 178, 195⟩ (by decide),
    hex_rgb_round_trip.2.1 17 34 51 (by decide) (by decide) (by decide),
    hex_rgb_round_trip.2.2 "zz" (by decide)⟩

/-- C1: for every run and repeat count, the rows of `scoreBattery` are
exactly the spec's rows: one per stimulus (in first-occurrence order,
then sorted), whose slot `i` holds the rgb of the colored response with
`repeatIndex === i` (no-color responses leave the slot untouched) and
whose `meanDeltaE` is the arithmetic mean of all pairwise ΔE76 distances
among the non-null slots, defined as 0 when at most one slot is non-null
(`specMeanDeltaE`); and the slot filling silently drops responses whose
`repeatIndex` is `< 0` or `≥ repeats` — filtering them away first changes
nothing. -/
theorem scoreBattery_meanDeltaE_spec (run : SB.BatteryRun) (repeats : ℕ) :
    (SB.scoreBattery run repeats).pickerRows
        = SB.sortRows
            ((dedupFirst (run.pickerResponses.map (fun r => r.grapheme))).map
              (SB.specRow run.pickerResponses repeats)) ∧
      ∀ rs, SB.fillSlots repeats rs
          = SB.fillSlots repeats (rs.filter (SB.inRange repeats)) := by
  constructor
  · simp only [SB.scoreBattery]
    congr 1
    rw [SB.groupByG_eq, List.map_map]
    apply List.map_congr_left
    intro g hg
    exact SB.mkRow_eq_specRow repeats run.pickerResponses g
  · intro rs
    exact SB.fillSlots_filter_inRange repeats rs

/-- C5: `congruencyAccuracyPct` is `100 × correct / total` (0 when there
are no congruency responses) and `congruencyMeanRtSec` is the mean of
`rtMs / 1000` (0 when there are none); ten responses of which seven are
correct score exactly 70. -/
theorem scoreBattery_congruency_stats :
    (∀ (run : SB.BatteryRun) (repeats : ℕ),
        (SB.scoreBattery run repeats).congruencyAccuracyPct
          = (if run.congruencyResponses.length = 0 then (0 : ℚ)
              else 100 * ((run.congruencyResponses.filter
                    (fun c => c.correct)).length : ℚ)
                / (run.congruencyResponses.length : ℚ)) ∧
        (SB.scoreBattery run repeats).congruencyMeanRtSec
          = (if run.congruencyResponses.length = 0 then (0 : ℚ)
              else (run.congruencyResponses.map
                  (fun c => c.rtMs / 1000)).sum
                / (run.congruencyResponses.length : ℚ))) ∧
      (SB.scoreBattery SB.scenarioCRun 3).congruencyAccuracyPct = 70 := by
  constructor
  · intro run repeats
    constructor
    · simp only [SB.scoreBattery]
      by_cases h : run.congruencyResponses.length = 0
      · rw [if_neg (not_not_intro h), if_pos h]
      · rw [if_pos h, if_neg h, mul_comm, mul_div_assoc]
    · simp only [SB.scoreBattery]
      by_cases h : run.congruencyResponses.length = 0
      · rw [if_neg (not_not_intro h), if_pos h]
      · rw [if_pos h, if_neg h, SB.foldl_add_rtMs _ 0, zero_add]
        have hs : (run.congruencyResponses.map (fun c => c.rtMs / 1000)).sum
            = (run.congruencyResponses.map (fun c => c.rtMs)).sum / 1000 := by
          rw [← SB.sum_map_div (run.congruencyResponses.map
            (fun c => c.rtMs)) 1000, List.map_map]
          rfl
        rw [hs, div_div, div_div,
          mul_comm ((run.congruencyResponses.length : ℚ)) 1000]
  · simp only [SB.scoreBattery, SB.scenarioCRun, SB.cResp]
    norm_num [List.filter]

/-- C7: the scorer is total with exact zero outputs on degenerate input:
a run with no picker and no congruency responses scores
`{pickerScore: 0, pickerRows: [], congruencyAccuracyPct: 0,
congruencyMeanRtSec: 0}` for every repeat count (no `NaN` and no
exception can arise: every division is guarded by an emptiness check, and
the Lean model is a total function); and with `repeats = 0` the
`pickerScore` is still exactly 0. -/
theorem scoreBattery_degenerate :
    (∀ (runId : String) (pt : List SB.PickerTrial) (pIdx : ℕ)
        (ct : List SB.CongruencyTrial) (cIdx : ℕ) (cAt : ℚ) (repeats : ℕ),
        SB.scoreBattery ⟨runId, pt, pIdx, [], ct, cIdx, [], cAt⟩ repeats
          = ⟨0, [], 0, 0⟩) ∧
      ∀ run : SB.BatteryRun, (SB.scoreBattery run 0).pickerScore = 0 := by
  constructor
  · intro runId pt pIdx ct cIdx cAt repeats
    simp [SB.scoreBattery, SB.groupByG, SB.sortRows]
  · intro run
    simp only [SB.scoreBattery]
    have hall : ∀ x ∈ (SB.groupByG run.pickerResponses).map
        (fun e => SB.mkRow 0 e.1 e.2), x.meanDeltaE = 0 := by
      intro x hx
      obtain ⟨e, he, rfl⟩ := List.mem_map.mp hx
      exact SB.mkRow_zero_mean e.1 e.2
    split
    · rw [SB.foldl_rows_zero _ hall 0, zero_div]
    · rfl

/-- C10: incongruent trials are not guaranteed a different color.
`pickDifferentColor` returns the target itself whenever the pool has at
most one color (consuming no draws), and for every run whose colored
picker responses yield at most one distinct canonical (last-chosen)
color, every incongruent trial emitted by
`buildCongruencyTrialsFromPicker` — under any `Math.random` stream —
shows exactly its own grapheme's canonical color. -/
theorem incongruent_can_show_own_color :
    (∀ (rand : ℕ → ℕ) (k : ℕ) (all : List SB.Rgb) (target : SB.Rgb),
        all.length ≤ 1 →
        SB.pickDifferentColor rand k all target = (target, k)) ∧
      ∀ (rand : ℕ → ℕ) (run : SB.BatteryRun) (per : ℕ),
        (∀ c1 ∈ (SB.lastColorByG run.pickerResponses).map (fun e => e.2),
          ∀ c2 ∈ (SB.lastColorByG run.pickerResponses).map (fun e => e.2),
            c1 = c2) →
        ∀ t ∈ SB.buildCongruencyTrialsFromPicker rand run per,
          t.isCongruent = false →
          (SB.lastColorByG run.pickerResponses).lookup t.grapheme
            = some t.shownRgb := by
  constructor
  · intro rand k all target h
    unfold SB.pickDifferentColor
    rw [if_pos h]
  · intro rand run per hcol t ht hinc
    have hpre : t ∈ (SB.builtCT rand run per).1 :=
      ((SB.shuffleRandGo_perm rand _ _ _).mem_iff).mp ht
    unfold SB.builtCT at hpre
    exact SB.builtCT_mem rand per (SB.lastColorByG run.pickerResponses) hcol
      ((SB.lastColorByG run.pickerResponses).map (fun e => e.1))
      ([], 0) (fun t ht => absurd ht (List.not_mem_nil t))
      t hpre hinc

/-- Witness for C10: a run whose two graphemes `"A"` and `"B"` were both
last colored pure red (a two-element pool, so the retry loop really
runs); the incongruent `"A"` trial of the built set shows red, `"A"`'s
own canonical color. The second conjunct exercises the `≤ 1`-pool
short-circuit at a concrete singleton pool. -/
theorem incongruent_can_show_own_color_witness :
    (SB.lastColorByG
          [⟨"t1", "A", 0, false, some ⟨255, 0, 0⟩, none, none, 0, 0⟩,
            ⟨"t2", "B", 0, false, some ⟨255, 0, 0⟩, none, none, 0, 0⟩]).lookup
        (SB.CongruencyTrial.mk "A" ⟨255, 0, 0⟩ false).grapheme
      = some (SB.CongruencyTrial.mk "A" ⟨255, 0, 0⟩ false).shownRgb ∧
      SB.pickDifferentColor (fun _ => 0) 7 [⟨1, 2, 3⟩] ⟨9, 9, 9⟩
        = (⟨9, 9, 9⟩, 7) :=
  ⟨incongruent_can_show_own_color.2 (fun _ => 0)
      ⟨"r", [], 0,
        [⟨"t1", "A", 0, false, some ⟨255, 0, 0⟩, none, none, 0, 0⟩,
          ⟨"t2", "B", 0, false, some ⟨255, 0, 0⟩, none, none, 0, 0⟩],
        [], 0, [], 0⟩ 1
      (by decide) ⟨"A", ⟨255, 0, 0⟩, false⟩ (by decide) rfl,
    incongruent_can_show_own_color.1 (fun _ => 0) 7 [⟨1, 2, 3⟩]
      ⟨9, 9, 9⟩ (by decide)⟩

end Syn
